import Mathlib

/-!
Verification of the voice-agent pipeline core (shallow embedding).

Python strings are modelled as `List Char`, monotonic-clock instants and
durations as `ℚ`, and each stateful object as an explicit state record.
Every definition is translated from the repository source; the few
definitions that follow the specification's words instead (for refinement
comparisons, or for code whose file is not part of the source tree) say so
in their doc comment.
-/

/-- Python strings, modelled as lists of characters. -/
abbrev Str := List Char

/-- Python `str.lstrip()` (no argument): drop leading whitespace. -/
def lstrip : Str → Str
  | [] => []
  | c :: t => if c.isWhitespace then lstrip t else c :: t

/-- Python `str.rstrip()` (no argument): drop trailing whitespace. -/
def rstrip (s : Str) : Str := (lstrip s.reverse).reverse

/-- Python `str.strip()` (no argument): drop whitespace on both ends. -/
def pyStrip (s : Str) : Str := lstrip (rstrip s)

/- ------------------------------------------------------------------ -/
/- 4.1 `_DeferredReplyValidation` (pipeline_agent.py)                  -/
/- ------------------------------------------------------------------ -/

/-- `_DeferredReplyValidation.PUNCTUATION = ".!?"`. -/
def PUNCTUATION : Str := ['.', '!', '?']

/-- `_DeferredReplyValidation.PUNCTUATION_REDUCE_FACTOR = 0.75`. -/
def PUNCTUATION_REDUCE_FACTOR : ℚ := 3 / 4

/-- `_DeferredReplyValidation.FINAL_TRANSCRIPT_TIMEOUT = 5`. -/
def FINAL_TRANSCRIPT_TIMEOUT : ℚ := 5

/-- The mutable fields of `_DeferredReplyValidation` read by
`_compute_delay`, plus the monotonic clock reading `time.perf_counter()`
passed in explicitly. -/
structure ValidationState where
  speaking : Bool
  last_final_transcript : Str
  last_recv_start_of_speech_time : ℚ
  last_recv_end_of_speech_time : ℚ
  last_recv_transcript_time : ℚ
deriving DecidableEq

/-- `_DeferredReplyValidation._end_with_punctuation`. -/
def end_with_punctuation (s : ValidationState) : Bool :=
  0 < s.last_final_transcript.length ∧
    s.last_final_transcript.getLast? ∈ PUNCTUATION.map some

/-- The `end_of_speech_time` selection inside `_compute_delay`: use the
transcript arrival time when it lies strictly between start-of-speech and
end-of-speech (and is positive), else the end-of-speech time. -/
def true_end_of_speech_time (s : ValidationState) : ℚ :=
  if 0 < s.last_recv_transcript_time ∧
      s.last_recv_start_of_speech_time < s.last_recv_transcript_time ∧
      s.last_recv_transcript_time < s.last_recv_end_of_speech_time then
    s.last_recv_transcript_time
  else s.last_recv_end_of_speech_time

/-- The `delay` local of `_compute_delay` before the elapsed-time
subtraction: the base delay, reduced when the transcript ends with
punctuation. -/
def base_delay (min_endpointing_delay : ℚ) (s : ValidationState) : ℚ :=
  if end_with_punctuation s then
    min_endpointing_delay * PUNCTUATION_REDUCE_FACTOR
  else min_endpointing_delay

/-- `_DeferredReplyValidation._compute_delay`.  `now` stands for
`time.perf_counter()`; `min_endpointing_delay` is the constructor
argument stored in `_end_of_speech_delay`. -/
def compute_delay (min_endpointing_delay : ℚ) (now : ℚ)
    (s : ValidationState) : Option ℚ :=
  if s.speaking then none
  else if s.last_final_transcript = [] then some FINAL_TRANSCRIPT_TIMEOUT
  else
    some (if now - true_end_of_speech_time s < base_delay min_endpointing_delay s
          then base_delay min_endpointing_delay s - (now - true_end_of_speech_time s)
          else 0)

/-- C2 -- when the agent is not speaking and the last final transcript is
non-empty and ends with one of `.`, `!`, `?`, the delay returned by
`_compute_delay` is at most `min_endpointing_delay * 0.75`. -/
theorem compute_delay_punctuation_bound
    (m now : ℚ) (s : ValidationState)
    (hm : 0 ≤ m)
    (hspeak : s.speaking = false)
    (hne : s.last_final_transcript ≠ [])
    (hpunct : s.last_final_transcript.getLast? ∈ PUNCTUATION.map some)
    (hend : s.last_recv_end_of_speech_time ≤ now)
    (htr : s.last_recv_transcript_time ≤ now) :
    ∃ d, compute_delay m now s = some d ∧ d ≤ m * PUNCTUATION_REDUCE_FACTOR := by
  have hlen : 0 < s.last_final_transcript.length := List.length_pos.mpr hne
  have hpb : end_with_punctuation s = true := by
    simp [end_with_punctuation, hlen, hpunct]
  have hfac : 0 ≤ m * PUNCTUATION_REDUCE_FACTOR := by
    have : (0 : ℚ) ≤ PUNCTUATION_REDUCE_FACTOR := by norm_num [PUNCTUATION_REDUCE_FACTOR]
    exact mul_nonneg hm this
  have hbd : base_delay m s = m * PUNCTUATION_REDUCE_FACTOR := by
    rw [base_delay, if_pos hpb]
  have heosle : true_end_of_speech_time s ≤ now := by
    unfold true_end_of_speech_time
    split
    · exact htr
    · exact hend
  unfold compute_delay
  rw [if_neg (by simp [hspeak]), if_neg hne]
  refine ⟨_, rfl, ?_⟩
  rw [hbd]
  split
  · linarith
  · exact hfac

/-- Witness for `compute_delay_punctuation_bound` at a concrete state. -/
theorem compute_delay_punctuation_bound_witness :
    ∃ d, compute_delay (1/2) 10
        { speaking := false
          last_final_transcript := ['h', 'i', '.']
          last_recv_start_of_speech_time := 8
          last_recv_end_of_speech_time := 10
          last_recv_transcript_time := 9 } = some d ∧
      d ≤ (1/2) * PUNCTUATION_REDUCE_FACTOR :=
  compute_delay_punctuation_bound (1/2) 10 _ (by norm_num) rfl
    (by decide) (by decide) (by norm_num) (by norm_num)

/-- C3 -- `_compute_delay` returns `None` while the user is speaking, and
returns exactly `FINAL_TRANSCRIPT_TIMEOUT = 5` seconds when no final
transcript has been received since the last reset. -/
theorem compute_delay_speaking_and_timeout
    (m now : ℚ) (s : ValidationState) :
    (s.speaking = true → compute_delay m now s = none) ∧
    (s.speaking = false → s.last_final_transcript = [] →
      compute_delay m now s = some 5) := by
  constructor
  · intro h; simp [compute_delay, h]
  · intro h hnil
    simp [compute_delay, h, hnil, FINAL_TRANSCRIPT_TIMEOUT]

/-- Witness for `compute_delay_speaking_and_timeout` at concrete states. -/
theorem compute_delay_speaking_and_timeout_witness :
    compute_delay 1 0
        { speaking := true, last_final_transcript := []
          last_recv_start_of_speech_time := 0
          last_recv_end_of_speech_time := 0
          last_recv_transcript_time := 0 } = none ∧
    compute_delay 1 0
        { speaking := false, last_final_transcript := []
          last_recv_start_of_speech_time := 0
          last_recv_end_of_speech_time := 0
          last_recv_transcript_time := 0 } = some 5 :=
  ⟨(compute_delay_speaking_and_timeout 1 0 _).1 rfl,
   (compute_delay_speaking_and_timeout 1 0 _).2 rfl rfl⟩

/- ------------------------------------------------------------------ -/
/- 4.3 `SynthesisHandle` (agent_output.py) and playout                -/
/- ------------------------------------------------------------------ -/

/-- Modelled from the spec: `PlayoutHandle` (its file `agent_playout.py`
is not part of the source tree).  The spec gives it `speech_id`,
`time_played`, `join()` and `interrupt()`; only the interruption flag is
relevant here. -/
structure PlayoutHandle where
  interrupted : Bool
deriving DecidableEq

/-- Modelled from the spec: `PlayoutHandle.interrupt()` marks the playout
handle interrupted. -/
def playout_interrupt (p : PlayoutHandle) : PlayoutHandle :=
  { p with interrupted := true }

/-- The process-wide `AppConfig` flags touched by
`SynthesisHandle.interrupt`. -/
structure AppConfigState where
  agent_has_been_interrupted : Bool
  is_human_interrupted : Bool
deriving DecidableEq

/-- The state of an `agent_output.SynthesisHandle`: whether
`_interrupt_fut` is done, the optional `_play_handle`, and the TTS
forwarder's `played_text`. -/
structure SynthesisHandle where
  interrupt_fut_done : Bool
  play_handle : Option PlayoutHandle
  played_text : Str
deriving DecidableEq

/-- `SynthesisHandle.interrupted` property: `self._interrupt_fut.done()`. -/
def SynthesisHandle.interrupted (h : SynthesisHandle) : Bool :=
  h.interrupt_fut_done

/-- `SynthesisHandle.interrupt` (agent_output.py lines 82-103): no-op on an
already-interrupted handle; otherwise update the `AppConfig` flags from
`played_text`, interrupt the play handle when present, and resolve
`_interrupt_fut`. -/
def SynthesisHandle.interrupt (h : SynthesisHandle) (cfg : AppConfigState) :
    SynthesisHandle × AppConfigState :=
  if h.interrupted then (h, cfg)
  else
    let cfg' :=
      if h.played_text ≠ [] ∧ pyStrip h.played_text ≠ [] then
        { cfg with agent_has_been_interrupted := true }
      else { cfg with is_human_interrupted := true }
    ({ h with
        play_handle := h.play_handle.map playout_interrupt
        interrupt_fut_done := true }, cfg')

/-- A Python `RuntimeError` raised by the embedded code. -/
inductive PyErr where
  | runtimeError
deriving DecidableEq

/-- `SynthesisHandle.play` (agent_output.py lines 72-80): raise
`RuntimeError` when interrupted, else create the playout handle via
`AgentPlayout.play`, register it as `_play_handle` and return it
(`AgentPlayout.play` itself lives in `agent_playout.py`, outside the
source tree; per the spec it constructs a fresh, uninterrupted
`PlayoutHandle`). -/
def SynthesisHandle.play (h : SynthesisHandle) :
    Except PyErr (SynthesisHandle × PlayoutHandle) :=
  if h.interrupted then .error .runtimeError
  else
    .ok ({ h with play_handle := some { interrupted := false } },
         { interrupted := false })

/-- A `SpeechHandle` as far as interruption is concerned: it owns its
synthesis handle once initialized. -/
structure SpeechHandle where
  synthesis : Option SynthesisHandle
deriving DecidableEq

/-- Modelled from the spec: `SpeechHandle.cancel` (file `speech_handle.py`
is not part of the source tree) propagates to the owned synthesis handle,
which signals its interrupt future. -/
def SpeechHandle.cancel (s : SpeechHandle) (cfg : AppConfigState) :
    SpeechHandle × AppConfigState :=
  match s.synthesis with
  | none => (s, cfg)
  | some h =>
    let r := h.interrupt cfg
    ({ synthesis := some r.1 }, r.2)

/-- The parts of `VoicePipelineAgent` state touched by
`VoicePipelineAgent.interrupt` (pipeline_agent.py lines 507-522). -/
structure AgentInterruptState where
  pending_agent_reply : Option SpeechHandle
  speech_q : List SpeechHandle
  playing_speech : Option SpeechHandle
deriving DecidableEq

/-- Cancel every handle of a list in order, threading the config. -/
def cancelAll (l : List SpeechHandle) (cfg : AppConfigState) :
    List SpeechHandle × AppConfigState :=
  match l with
  | [] => ([], cfg)
  | s :: t =>
    let r := s.cancel cfg
    let rest := cancelAll t r.2
    (r.1 :: rest.1, rest.2)

/-- Cancel an optional handle. -/
def cancelOpt (o : Option SpeechHandle) (cfg : AppConfigState) :
    Option SpeechHandle × AppConfigState :=
  match o with
  | none => (none, cfg)
  | some s =>
    let r := s.cancel cfg
    (some r.1, r.2)

/-- `VoicePipelineAgent.interrupt(interrupt_all)` (pipeline_agent.py lines
507-522): when `interrupt_all`, cancel the pending reply and every queued
speech; always cancel the playing speech. -/
def agent_interrupt (interrupt_all : Bool) (a : AgentInterruptState)
    (cfg : AppConfigState) : AgentInterruptState × AppConfigState :=
  let r1 :=
    if interrupt_all then
      let p := cancelOpt a.pending_agent_reply cfg
      let q := cancelAll a.speech_q p.2
      (({ a with pending_agent_reply := p.1, speech_q := q.1 } :
          AgentInterruptState), q.2)
    else (a, cfg)
  let r2 := cancelOpt r1.1.playing_speech r1.2
  ({ r1.1 with playing_speech := r2.1 }, r2.2)

/-- Interrupting an already-interrupted synthesis handle changes nothing. -/
theorem synthesis_interrupt_done_noop (h : SynthesisHandle)
    (cfg : AppConfigState) (hd : h.interrupt_fut_done = true) :
    h.interrupt cfg = (h, cfg) := by
  unfold SynthesisHandle.interrupt SynthesisHandle.interrupted
  rw [if_pos hd]

/-- After `interrupt`, the interrupt future is done. -/
theorem synthesis_interrupt_sets_done (h : SynthesisHandle)
    (cfg : AppConfigState) :
    (h.interrupt cfg).1.interrupt_fut_done = true := by
  unfold SynthesisHandle.interrupt SynthesisHandle.interrupted
  by_cases hd : h.interrupt_fut_done = true
  · rw [if_pos hd]; exact hd
  · rw [if_neg hd]

/-- A speech handle whose synthesis (when present) has already resolved
its interrupt future. -/
def SpeechHandle.done (s : SpeechHandle) : Prop :=
  ∀ h, s.synthesis = some h → h.interrupt_fut_done = true

/-- Cancelling a handle whose synthesis is already interrupted changes
nothing, whatever the current config. -/
theorem speech_cancel_done_noop (s : SpeechHandle) (cfg : AppConfigState)
    (hd : s.done) : s.cancel cfg = (s, cfg) := by
  unfold SpeechHandle.cancel
  match hs : s.synthesis with
  | none =>
    cases s
    simp_all
  | some h =>
    cases s
    simp only at hs
    subst hs
    simp only
    rw [synthesis_interrupt_done_noop h cfg (hd h rfl)]

/-- After `cancel`, the handle's synthesis is interrupted. -/
theorem speech_cancel_makes_done (s : SpeechHandle) (cfg : AppConfigState) :
    ((s.cancel cfg).1).done := by
  unfold SpeechHandle.cancel
  match hs : s.synthesis with
  | none =>
    intro h hh
    simp_all
  | some h =>
    intro h' hh'
    simp only at hh'
    cases hh'
    exact synthesis_interrupt_sets_done h cfg

/-- `cancelAll` on a list of already-cancelled handles changes nothing. -/
theorem cancelAll_done_noop (l : List SpeechHandle) (cfg : AppConfigState)
    (hd : ∀ s ∈ l, s.done) : cancelAll l cfg = (l, cfg) := by
  induction l generalizing cfg with
  | nil => rfl
  | cons s t ih =>
    unfold cancelAll
    simp only
    rw [speech_cancel_done_noop s cfg (hd s (by simp))]
    rw [ih cfg (fun x hx => hd x (by simp [hx]))]

/-- Every handle in the result of `cancelAll` is cancelled. -/
theorem cancelAll_makes_done (l : List SpeechHandle) (cfg : AppConfigState) :
    ∀ s ∈ (cancelAll l cfg).1, s.done := by
  induction l generalizing cfg with
  | nil => intro s hs; simp [cancelAll] at hs
  | cons a t ih =>
    intro s hs
    unfold cancelAll at hs
    simp only [List.mem_cons] at hs
    rcases hs with hs | hs
    · subst hs; exact speech_cancel_makes_done a cfg
    · exact ih (a.cancel cfg).2 s hs

/-- `cancelOpt` on an already-cancelled optional handle changes nothing. -/
theorem cancelOpt_done_noop (o : Option SpeechHandle) (cfg : AppConfigState)
    (hd : ∀ s, o = some s → s.done) : cancelOpt o cfg = (o, cfg) := by
  match o with
  | none => rfl
  | some s =>
    unfold cancelOpt
    simp only
    rw [speech_cancel_done_noop s cfg (hd s rfl)]

/-- The result of `cancelOpt` holds only cancelled handles. -/
theorem cancelOpt_makes_done (o : Option SpeechHandle) (cfg : AppConfigState) :
    ∀ s, (cancelOpt o cfg).1 = some s → s.done := by
  match o with
  | none => intro s hs; simp [cancelOpt] at hs
  | some a =>
    intro s hs
    unfold cancelOpt at hs
    simp only [Option.some.injEq] at hs
    cases hs
    exact speech_cancel_makes_done a cfg

/-- C8 -- `interrupt()` is idempotent: a second `SynthesisHandle.interrupt`
on an already-interrupted handle is a no-op leaving its state, its play
handle, the interrupt future and the config unchanged, and the agent-level
`VoicePipelineAgent.interrupt` that propagates to it is likewise a no-op
when applied a second time. -/
theorem interrupt_idempotent :
    (∀ (h : SynthesisHandle) (cfg : AppConfigState),
      ((h.interrupt cfg).1).interrupt (h.interrupt cfg).2 = h.interrupt cfg) ∧
    (∀ (b : Bool) (a : AgentInterruptState) (cfg : AppConfigState),
      agent_interrupt b (agent_interrupt b a cfg).1 (agent_interrupt b a cfg).2 =
        agent_interrupt b a cfg) := by
  constructor
  · intro h cfg
    exact synthesis_interrupt_done_noop (h.interrupt cfg).1 (h.interrupt cfg).2
      (synthesis_interrupt_sets_done h cfg)
  · intro b a cfg
    unfold agent_interrupt
    cases b with
    | false =>
      simp only [Bool.false_eq_true, if_false]
      rw [cancelOpt_done_noop _ _ (cancelOpt_makes_done a.playing_speech cfg)]
    | true =>
      simp only [if_true]
      rw [cancelOpt_done_noop _ _ (cancelOpt_makes_done a.pending_agent_reply cfg)]
      rw [cancelAll_done_noop _ _
        (cancelAll_makes_done a.speech_q (cancelOpt a.pending_agent_reply cfg).2)]
      rw [cancelOpt_done_noop _ _ (cancelOpt_makes_done a.playing_speech _)]

/-- C10 -- `SynthesisHandle.play` raises `RuntimeError` on an interrupted
handle (registering no playout handle), and on a non-interrupted handle
returns the freshly created playout handle after registering it. -/
theorem play_raises_iff_interrupted (h : SynthesisHandle) :
    (h.interrupt_fut_done = true → h.play = .error .runtimeError) ∧
    (h.interrupt_fut_done = false →
      h.play = .ok ({ h with play_handle := some { interrupted := false } },
        { interrupted := false })) := by
  constructor
  · intro hi
    unfold SynthesisHandle.play SynthesisHandle.interrupted
    rw [if_pos hi]
  · intro hi
    unfold SynthesisHandle.play SynthesisHandle.interrupted
    rw [if_neg (by simp [hi])]

/-- Witness for `play_raises_iff_interrupted` at concrete handles. -/
theorem play_raises_iff_interrupted_witness :
    SynthesisHandle.play
        { interrupt_fut_done := true, play_handle := none, played_text := [] } =
      .error .runtimeError ∧
    SynthesisHandle.play
        { interrupt_fut_done := false, play_handle := none, played_text := [] } =
      .ok ({ interrupt_fut_done := false,
             play_handle := some { interrupted := false },
             played_text := [] },
           { interrupted := false }) :=
  ⟨(play_raises_iff_interrupted _).1 rfl,
   (play_raises_iff_interrupted _).2 rfl⟩

/- ------------------------------------------------------------------ -/
/- 4.5 `StreamAdapterWrapper._run` (tts/stream_adapter.py)             -/
/- ------------------------------------------------------------------ -/

/-- A `SynthesizedAudio` event as far as the stream adapter inspects it:
an opaque frame identity plus the `is_final` flag. -/
structure SynthesizedAudio where
  frame_id : Nat
  is_final : Bool
deriving DecidableEq

/-- The `last_audio` holding loop of `_synthesize` inside
`StreamAdapterWrapper._run` (stream_adapter.py lines 91-105): each chunk
displaces the held one onto the event channel; at exhaustion the held
chunk is emitted with `is_final = True`. -/
def synthesize_emit_loop : Option SynthesizedAudio → List SynthesizedAudio →
    List SynthesizedAudio
  | none, [] => []
  | some last_audio, [] => [{ last_audio with is_final := true }]
  | none, a :: rest => synthesize_emit_loop (some a) rest
  | some last_audio, a :: rest =>
    last_audio :: synthesize_emit_loop (some a) rest

/-- The events `_synthesize` sends on `_event_ch` for one sentence token,
given the chunked audio the wrapped TTS produced for it. -/
def synthesize_sentence (chunks : List SynthesizedAudio) :
    List SynthesizedAudio :=
  synthesize_emit_loop none chunks

/-- Unfolding of the holding loop on a nonempty remainder. -/
theorem synthesize_emit_loop_cons (la : SynthesizedAudio)
    (a : SynthesizedAudio) (rest : List SynthesizedAudio) :
    synthesize_emit_loop (some la) (a :: rest) =
      la :: synthesize_emit_loop (some a) rest := rfl

/-- The held-chunk loop emits the earlier chunks unchanged and the last
chunk with `is_final` set. -/
theorem synthesize_emit_loop_spec (a : SynthesizedAudio)
    (rest : List SynthesizedAudio) :
    synthesize_emit_loop (some a) rest =
      (a :: rest).dropLast ++
        [{ (a :: rest).getLast (by simp) with is_final := true }] := by
  induction rest generalizing a with
  | nil => rfl
  | cons b t ih =>
    rw [synthesize_emit_loop_cons, ih b]
    simp

/-- C9 -- for a sentence that yields at least one audio chunk, `_synthesize`
emits the earlier chunks in production order with their original `is_final`
values, followed by the last chunk with `is_final = True`; when the earlier
chunks are not final (as produced by the chunked streams of this
repository), exactly the last emitted event is final. -/
theorem stream_adapter_last_final (chunks : List SynthesizedAudio)
    (hne : chunks ≠ []) :
    synthesize_sentence chunks =
      chunks.dropLast ++ [{ chunks.getLast hne with is_final := true }] ∧
    ((∀ a ∈ chunks.dropLast, a.is_final = false) →
      (synthesize_sentence chunks).map SynthesizedAudio.is_final =
        List.replicate (chunks.length - 1) false ++ [true]) := by
  match chunks with
  | a :: rest =>
    have hs : synthesize_sentence (a :: rest) =
        (a :: rest).dropLast ++
          [{ (a :: rest).getLast (by simp) with is_final := true }] :=
      synthesize_emit_loop_spec a rest
    refine ⟨hs, ?_⟩
    intro hfin
    rw [hs, List.map_append]
    have hlen : ((a :: rest).dropLast).length = (a :: rest).length - 1 := by
      simp
    have hrep : ((a :: rest).dropLast).map SynthesizedAudio.is_final =
        List.replicate ((a :: rest).length - 1) false := by
      rw [List.eq_replicate_iff]
      constructor
      · simp [hlen]
      · intro b hb
        rcases List.mem_map.mp hb with ⟨x, hx, hxb⟩
        rw [← hxb]
        exact hfin x hx
    rw [hrep]
    simp

/-- Witness for `stream_adapter_last_final` at a concrete chunk list. -/
theorem stream_adapter_last_final_witness :
    synthesize_sentence
        [{ frame_id := 0, is_final := false }, { frame_id := 1, is_final := false }] =
      [{ frame_id := 0, is_final := false }, { frame_id := 1, is_final := true }] ∧
    (synthesize_sentence
        [{ frame_id := 0, is_final := false }, { frame_id := 1, is_final := false }]).map
        SynthesizedAudio.is_final = [false, true] := by
  have h := stream_adapter_last_final
    [{ frame_id := 0, is_final := false }, { frame_id := 1, is_final := false }]
    (by decide)
  refine ⟨?_, ?_⟩
  · rw [h.1]; rfl
  · rw [h.2 (by decide)]; rfl

/- ------------------------------------------------------------------ -/
/- 4.2 `_commit_user_question_if_needed` (pipeline_agent.py 955-988)   -/
/- ------------------------------------------------------------------ -/

/-- `VoicePipelineAgent.MIN_TIME_PLAYED_FOR_COMMIT = 0.1`. -/
def MIN_TIME_PLAYED_FOR_COMMIT : ℚ := 1 / 10

/-- The `source` of a `SpeechHandle` as inspected by
`_commit_user_question_if_needed`: an `LLMStream` carrying its collected
function calls, or one of the non-LLM source kinds. -/
inductive SpeechSource where
  | llm_stream (function_calls : Nat)
  | plain_text
  | text_stream
deriving DecidableEq

/-- `isinstance(speech_handle.source, LLMStream) and
len(speech_handle.source.function_calls)`, as a boolean. -/
def is_using_tools : SpeechSource → Bool
  | .llm_stream n => n ≠ 0
  | .plain_text => false
  | .text_stream => false

/-- The values read by `_commit_user_question_if_needed` from the playing
speech handle, its synthesis handle and the playout handle. -/
structure CommitCtx where
  user_question : Str
  synthesis_interrupted : Bool
  user_committed : Bool
  allow_interruptions : Bool
  source : SpeechSource
  played_text : Str
  time_played : ℚ
  join_done : Bool
deriving DecidableEq

/-- The agent state mutated by a commit: the chat context messages (user
texts), `_transcribed_text`, and the `user_speech_committed` events. -/
structure ChatState where
  messages : List Str
  transcribed_text : Str
  user_speech_committed_events : List Str
deriving DecidableEq

/-- The first early-return guard of `_commit_user_question_if_needed`:
no question, synthesis interrupted, or already committed. -/
abbrev commit_skip_guard (c : CommitCtx) : Prop :=
  c.user_question = [] ∨ c.synthesis_interrupted = true ∨ c.user_committed = true

/-- The second early-return guard: interruptions allowed, no tools in use,
and nothing (or only whitespace) spoken, or too little played while the
playout is still running. -/
abbrev commit_too_little_played_guard (c : CommitCtx) : Prop :=
  c.allow_interruptions = true ∧ is_using_tools c.source = false ∧
    (c.played_text = [] ∨ pyStrip c.played_text = [] ∨
      (c.time_played < MIN_TIME_PLAYED_FOR_COMMIT ∧ c.join_done = false))

/-- `_commit_user_question_if_needed` (pipeline_agent.py lines 955-988):
return unchanged under either guard; otherwise append the user message,
emit `user_speech_committed`, trim `_transcribed_text` and mark the handle
user-committed. -/
def commit_user_question_if_needed (c : CommitCtx) (st : ChatState) :
    CommitCtx × ChatState :=
  if commit_skip_guard c then (c, st)
  else if commit_too_little_played_guard c then (c, st)
  else
    ({ c with user_committed := true },
     { messages := st.messages ++ [c.user_question],
       transcribed_text := st.transcribed_text.drop c.user_question.length,
       user_speech_committed_events :=
         st.user_speech_committed_events ++ [c.user_question] })

/-- The commit condition exactly as claim C1 words it: non-empty and
uncommitted question, synthesis not interrupted, and interruptions
disallowed, or tools in use, or at least `MIN_TIME_PLAYED_FOR_COMMIT`
played with non-whitespace spoken text. -/
def commit_rule_claimed (c : CommitCtx) : Prop :=
  c.user_question ≠ [] ∧ c.user_committed = false ∧
    c.synthesis_interrupted = false ∧
    (c.allow_interruptions = false ∨ is_using_tools c.source = true ∨
      (MIN_TIME_PLAYED_FOR_COMMIT ≤ c.time_played ∧ pyStrip c.played_text ≠ []))

instance (c : CommitCtx) : Decidable (commit_rule_claimed c) := by
  unfold commit_rule_claimed
  infer_instance

/-- The commit condition as the code implements it (the amendment of
claim C1): as claimed, except that a finished playout (`join_fut.done()`)
also lifts the minimum-played-time requirement. -/
def commit_rule_amended (c : CommitCtx) : Prop :=
  c.user_question ≠ [] ∧ c.user_committed = false ∧
    c.synthesis_interrupted = false ∧
    (c.allow_interruptions = false ∨ is_using_tools c.source = true ∨
      (pyStrip c.played_text ≠ [] ∧
        (MIN_TIME_PLAYED_FOR_COMMIT ≤ c.time_played ∨ c.join_done = true)))

instance (c : CommitCtx) : Decidable (commit_rule_amended c) := by
  unfold commit_rule_amended
  infer_instance

/-- The conjunction of the two guard negations is the amended rule. -/
theorem commit_guards_iff_amended (c : CommitCtx) :
    (¬ commit_skip_guard c ∧ ¬ commit_too_little_played_guard c) ↔
      commit_rule_amended c := by
  unfold commit_rule_amended
  have hps : c.played_text = [] → pyStrip c.played_text = [] := by
    intro h
    rw [h]
    rfl
  simp only [commit_skip_guard, commit_too_little_played_guard, not_or,
    not_and, Bool.not_eq_true, Bool.not_eq_false, not_lt]
  constructor
  · rintro ⟨⟨hq, hi, hc⟩, hg⟩
    refine ⟨hq, hc, hi, ?_⟩
    by_cases ha : c.allow_interruptions = true
    · by_cases ht : is_using_tools c.source = false
      · have h3 := hg ha ht
        push_neg at h3
        exact Or.inr (Or.inr ⟨h3.2.1, by
          by_cases hlt : c.time_played < MIN_TIME_PLAYED_FOR_COMMIT
          · exact Or.inr (h3.2.2 hlt)
          · exact Or.inl (not_lt.mp hlt)⟩)
      · exact Or.inr (Or.inl (by simpa using ht))
    · exact Or.inl (by simpa using ha)
  · rintro ⟨hq, hc, hi, hrest⟩
    refine ⟨⟨hq, hi, hc⟩, ?_⟩
    intro ha ht
    rcases hrest with h | h | h
    · rw [ha] at h
      cases h
    · rw [ht] at h
      cases h
    · push_neg
      refine ⟨fun hpt => absurd (hps hpt) h.1, h.1, fun hlt => ?_⟩
      rcases h.2 with h2 | h2
      · exact absurd hlt (not_lt.mpr h2)
      · exact h2

/-- C1 (amended) -- `_commit_user_question_if_needed` commits the user
question (appending the user message, emitting `user_speech_committed`,
trimming the transcript and marking the handle) iff the question is
non-empty and uncommitted, the synthesis is not interrupted, and either
interruptions are disallowed, or tools are in use, or non-whitespace text
was spoken and the playout has either run for at least 0.1 s or already
finished. -/
theorem commit_user_question_spec (c : CommitCtx) (st : ChatState) :
    commit_user_question_if_needed c st =
      if commit_rule_amended c then
        ({ c with user_committed := true },
         { messages := st.messages ++ [c.user_question],
           transcribed_text := st.transcribed_text.drop c.user_question.length,
           user_speech_committed_events :=
             st.user_speech_committed_events ++ [c.user_question] })
      else (c, st) := by
  by_cases ha : commit_rule_amended c
  · rw [if_pos ha]
    have h := (commit_guards_iff_amended c).mpr ha
    unfold commit_user_question_if_needed
    rw [if_neg h.1, if_neg h.2]
  · rw [if_neg ha]
    unfold commit_user_question_if_needed
    by_cases h1 : commit_skip_guard c
    · rw [if_pos h1]
    · rw [if_neg h1]
      by_cases h2 : commit_too_little_played_guard c
      · rw [if_pos h2]
      · exact absurd ((commit_guards_iff_amended c).mp ⟨h1, h2⟩) ha

/-- The concrete context refuting claim C1's commit rule: interruptions
allowed, no tools, non-whitespace text spoken, only 0.05 s played, but the
playout already finished. -/
def commit_cex : CommitCtx :=
  { user_question := ['h', 'i']
    synthesis_interrupted := false
    user_committed := false
    allow_interruptions := true
    source := .plain_text
    played_text := ['a']
    time_played := 1 / 20
    join_done := true }

/-- C1 counterexample -- at `commit_cex` the code commits the user
question (it appends the message and marks the handle) although the
commit condition claimed in C1 is false there. -/
theorem commit_claim_false_at_cex :
    ¬ commit_rule_claimed commit_cex ∧
    (commit_user_question_if_needed commit_cex
        ⟨[], ['h', 'i'], []⟩).2.messages = [['h', 'i']] ∧
    (commit_user_question_if_needed commit_cex
        ⟨[], ['h', 'i'], []⟩).1.user_committed = true := by
  have hg1 : ¬ commit_skip_guard commit_cex := by decide
  have hg2 : ¬ commit_too_little_played_guard commit_cex := by
    intro h
    rcases h.2.2 with h3 | h3 | h3
    · exact absurd h3 (by decide)
    · exact absurd h3 (by decide)
    · exact absurd h3.2 (by decide)
  have hrun : commit_user_question_if_needed commit_cex ⟨[], ['h', 'i'], []⟩ =
      ({ commit_cex with user_committed := true },
       { messages := [['h', 'i']]
         transcribed_text := []
         user_speech_committed_events := [['h', 'i']] }) := by
    unfold commit_user_question_if_needed
    rw [if_neg hg1, if_neg hg2]
    rfl
  refine ⟨?_, ?_, ?_⟩
  · intro hcl
    rcases hcl.2.2.2 with h | h | h
    · exact absurd h (by decide)
    · exact absurd h (by decide)
    · have h1 := h.1
      norm_num [commit_cex, MIN_TIME_PLAYED_FOR_COMMIT] at h1
  · rw [hrun]
  · rw [hrun]

/- ------------------------------------------------------------------ -/
/- §5 retry loops: `STT.recognize`, `RecognizeStream._main_task`       -/
/- ------------------------------------------------------------------ -/

/-- The outcome of one attempt of `_recognize_impl` / `_run`: success, an
`APIStatusError` with its HTTP status code, or another `APIError`. -/
inductive ApiOutcome where
  | success
  | status_error (status_code : Nat)
  | api_error
deriving DecidableEq

/-- How a retry loop ends (or fails to). -/
inductive RetryResult where
  | returned
  | raised_original
  | raised_status (status_code : Nat)
  | raised_connection_error
  | raised_runtime_unreachable
  | loop_exited
  | still_running
deriving DecidableEq

/-- The retry loop of `STT.recognize` (stt.py lines 102-147): a
`for i in range(max_retry + 1)` loop; 429/500 status errors `continue`
(consuming a loop iteration), other status errors re-raise, other
`APIError`s raise `APIConnectionError` on the last attempt; falling off the
loop hits `raise RuntimeError("unreachable")`.  The list holds the outcome
of each successive attempt; `still_running` means the loop was about to
attempt again when the supplied trace ran out. -/
def recognize_retry_loop (max_retry : Nat) : Nat → List ApiOutcome → RetryResult
  | i, outcomes =>
    if max_retry + 1 ≤ i then .raised_runtime_unreachable
    else
      match outcomes with
      | [] => .still_running
      | .success :: _ => .returned
      | .status_error code :: rest =>
        if max_retry = 0 then .raised_original
        else if code = 429 ∨ code = 500 then
          recognize_retry_loop max_retry (i + 1) rest
        else .raised_status code
      | .api_error :: rest =>
        if max_retry = 0 then .raised_original
        else if i = max_retry then .raised_connection_error
        else recognize_retry_loop max_retry (i + 1) rest

/-- The retry loop of `RecognizeStream._main_task` (stt.py lines 218-250):
a `while num_retries <= max_retries` loop whose `continue` for 429/500
status errors skips the `num_retries += 1` at the bottom of the handler,
so those attempts never count. -/
def stream_main_task_loop (max_retry : Nat) : Nat → List ApiOutcome → RetryResult
  | num_retries, outcomes =>
    if max_retry < num_retries then .loop_exited
    else
      match outcomes with
      | [] => .still_running
      | .success :: _ => .returned
      | .status_error code :: rest =>
        if max_retry = 0 then .raised_original
        else if code = 429 ∨ code = 500 then
          stream_main_task_loop max_retry num_retries rest
        else .raised_status code
      | .api_error :: rest =>
        if max_retry = 0 then .raised_original
        else if num_retries = max_retry then .raised_connection_error
        else stream_main_task_loop max_retry (num_retries + 1) rest

/-- C4 -- contrary to the claimed bound of `max_retry + 1` attempts,
`RecognizeStream._main_task` keeps calling `_run` forever on repeated
HTTP 429 failures with `max_retry = 1`: after consuming a trace of `n`
failed attempts, for any `n`, the loop is still running and no terminal
error has been raised (each consumed outcome is one `_run` attempt, so the
attempt count exceeds any bound).  `recognize_retry_loop` shows the sibling
`STT.recognize` loop is bounded instead, confirming the slip. -/
theorem stream_retry_unbounded_on_429 (n : Nat) :
    stream_main_task_loop 1 0 (List.replicate n (.status_error 429)) =
      .still_running ∧
    recognize_retry_loop 1 0 (List.replicate 3 (.status_error 429)) =
      .raised_runtime_unreachable := by
  constructor
  · induction n with
    | zero => rfl
    | succ k ih =>
      rw [List.replicate_succ]
      unfold stream_main_task_loop
      simpa using ih
  · rfl

/- ------------------------------------------------------------------ -/
/- 4.4 `BufferedTokenStream` (tokenize/token_stream.py)                -/
/- ------------------------------------------------------------------ -/

/-- Python `str.split()` with no argument, via an accumulator for the word
being scanned: split on whitespace runs, drop empties.  This is the word
tokenizer the buffered stream is instantiated with. -/
def pyWordsAux : Str → Str → List Str
  | [], acc => if acc = [] then [] else [acc.reverse]
  | c :: t, acc =>
    if c.isWhitespace then
      if acc = [] then pyWordsAux t [] else acc.reverse :: pyWordsAux t []
    else pyWordsAux t (c :: acc)

/-- Whitespace-separated words of a string (Python `str.split()`). -/
def pyWords (s : Str) : List Str := pyWordsAux s []

/-- A word tokenizer that also strips periods from each word (the basic
word tokenizer with `ignore_punctuation` restricted to `.`). -/
def words_no_period (s : Str) : List Str :=
  ((pyWords s).map (fun w => w.filter (fun c => !(c == '.')))).filter
    (fun w => !(w == []))

/-- Python `str.find(sub)`: index of the first occurrence, `none` if
absent. -/
def findIdx : Str → Str → Option Nat
  | [], sub => if sub.isPrefixOf [] then some 0 else none
  | c :: t, sub =>
    if sub.isPrefixOf (c :: t) then some 0
    else (findIdx t sub).map (· + 1)

/-- `max(self._in_buf.find(tok), 0)` from `_process_buffer`. -/
def findMax0 (s sub : Str) : Nat := (findIdx s sub).getD 0

/-- Split a text at its first period: `some (before-and-including-dot,
after-dot)`, or `none` when no period occurs.  This is the
`for i, char in enumerate(text): if char == "."` scan of `push_text`. -/
def splitAtFirstDot : Str → Option (Str × Str)
  | [] => none
  | c :: t =>
    if c = '.' then some ([c], t)
    else
      match splitAtFirstDot t with
      | some (pre, suf) => some (c :: pre, suf)
      | none => none

/-- Python `" ".join(tokens)`. -/
def joinSpace : List Str → Str
  | [] => []
  | [w] => w
  | w :: l => w ++ ' ' :: joinSpace l

/-- Does the string end with a whitespace character? -/
def ends_with_ws : Str → Bool
  | [] => false
  | [c] => c.isWhitespace
  | _ :: c :: t => ends_with_ws (c :: t)

/-- Does the string start with a whitespace character? -/
def starts_with_ws : Str → Bool
  | [] => false
  | c :: _ => c.isWhitespace

/-- The string is empty or ends with whitespace. -/
def ends_ws_or_empty (s : Str) : Prop := s = [] ∨ ends_with_ws s = true

/-- A split point `x ++ y` is whitespace-safe when either side is empty,
`x` ends with whitespace, or `y` starts with whitespace: no word runs
across the boundary. -/
def whitespace_safe (x y : Str) : Prop :=
  x = [] ∨ y = [] ∨ ends_with_ws x = true ∨ starts_with_ws y = true

instance (x y : Str) : Decidable (whitespace_safe x y) := by
  unfold whitespace_safe
  infer_instance

/-- One emitted `TokenData`. -/
structure TokenData where
  token : Str
  segment_id : Nat
deriving DecidableEq

/-- The buffer state of a `BufferedTokenStream`: `_in_buf`, `_out_buf` and
`_current_segment_id` (fresh ids modelled as successive naturals). -/
structure TokState where
  in_buf : Str
  out_buf : Str
  segment_id : Nat
deriving DecidableEq

/-- `if self._out_buf: self._out_buf += " "` followed by
`self._out_buf += tok_text`. -/
def out_buf_append (out_buf tok : Str) : Str :=
  (if out_buf = [] then out_buf else out_buf ++ [' ']) ++ tok

/-- `"." in self._out_buf or len(self._out_buf) >= self._min_token_len`. -/
def should_emit (out_buf : Str) (min_token_len : Nat) : Bool :=
  out_buf.contains '.' || min_token_len ≤ out_buf.length

/-- The `while True` loop of `_process_buffer` (token_stream.py lines
67-131), with explicit fuel (the loop strictly shrinks `_in_buf` whenever
it continues, so `in_buf.length + 1` fuel is always enough).  Exactly one
of the branches applies per iteration: break when a single token remains
unforced, consume a forced single token and clear `_in_buf`, consume the
first of several tokens, or break when there are no tokens. -/
def process_buffer_loop (tokenize_fnc : Str → List Str) (min_token_len : Nat)
    (force_process : Bool) : Nat → TokState → TokState × List TokenData
  | 0, st => (st, [])
  | fuel + 1, st =>
    let tokens := tokenize_fnc st.in_buf
    if tokens.length ≤ 1 ∧ force_process = false then (st, [])
    else
      match tokens with
      | [] => (st, [])
      | [tok] =>
        let ob := out_buf_append st.out_buf tok
        if should_emit ob min_token_len then
          ({ st with in_buf := [], out_buf := [] },
           [{ token := ob, segment_id := st.segment_id }])
        else ({ st with in_buf := [], out_buf := ob }, [])
      | tok :: _ :: _ =>
        let ob := out_buf_append st.out_buf tok
        let emitted := should_emit ob min_token_len
        let st' : TokState :=
          { st with
            in_buf := lstrip (st.in_buf.drop (findMax0 st.in_buf tok + tok.length))
            out_buf := if emitted then [] else ob }
        let r := process_buffer_loop tokenize_fnc min_token_len force_process fuel st'
        (r.1, (if emitted then [{ token := ob, segment_id := st.segment_id }] else [])
          ++ r.2)

/-- `_process_buffer(force_process)` (token_stream.py lines 62-131). -/
def process_buffer (tokenize_fnc : Str → List Str)
    (min_token_len min_ctx_len : Nat) (force_process : Bool) (st : TokState) :
    TokState × List TokenData :=
  if force_process = false ∧ st.in_buf.length < min_ctx_len then (st, [])
  else process_buffer_loop tokenize_fnc min_token_len force_process
    (st.in_buf.length + 1) st

/-- The recursion of `push_text` (token_stream.py lines 33-59) with fuel:
the recursive call runs on the text strictly after the first period, so
`text.length + 1` fuel always suffices. -/
def push_text_loop (tokenize_fnc : Str → List Str)
    (min_token_len min_ctx_len : Nat) :
    Nat → TokState → Str → TokState × List TokenData
  | 0, st, _ => (st, [])
  | fuel + 1, st, text =>
    match splitAtFirstDot text with
    | some (pre, suf) =>
      let r1 := process_buffer tokenize_fnc min_token_len min_ctx_len true
        { st with in_buf := st.in_buf ++ pre }
      if suf = [] then r1
      else
        let r2 := push_text_loop tokenize_fnc min_token_len min_ctx_len fuel
          r1.1 suf
        (r2.1, r1.2 ++ r2.2)
    | none =>
      let st1 : TokState := { st with in_buf := st.in_buf ++ text }
      if st1.in_buf.length < min_ctx_len then (st1, [])
      else process_buffer tokenize_fnc min_token_len min_ctx_len false st1

/-- `push_text(text)` on the buffer state. -/
def push_text (tokenize_fnc : Str → List Str)
    (min_token_len min_ctx_len : Nat) (st : TokState) (text : Str) :
    TokState × List TokenData :=
  push_text_loop tokenize_fnc min_token_len min_ctx_len (text.length + 1) st text

/-- `flush()` (token_stream.py lines 134-156): when either buffer is
non-empty, join the remaining tokens onto `_out_buf`, emit it when
non-empty, and rotate the segment id; always clear both buffers. -/
def flush (tokenize_fnc : Str → List Str) (st : TokState) :
    TokState × List TokenData :=
  if st.in_buf = [] ∧ st.out_buf = [] then
    ({ st with in_buf := [], out_buf := [] }, [])
  else
    let tokens := tokenize_fnc st.in_buf
    let ob :=
      if tokens = [] then st.out_buf
      else (if st.out_buf = [] then st.out_buf else st.out_buf ++ [' ']) ++
        joinSpace tokens
    ({ in_buf := [], out_buf := [], segment_id := st.segment_id + 1 },
     if ob = [] then [] else [{ token := ob, segment_id := st.segment_id }])

/-- A `BufferedTokenStream` with its event channel's closedness. -/
structure TokStream where
  st : TokState
  closed : Bool
deriving DecidableEq

/-- `flush()` at stream level: `_check_not_closed` raises `RuntimeError`
on a closed stream. -/
def stream_flush (tokenize_fnc : Str → List Str) (s : TokStream) :
    Except PyErr (TokStream × List TokenData) :=
  if s.closed then .error .runtimeError
  else
    let r := flush tokenize_fnc s.st
    .ok ({ s with st := r.1 }, r.2)

/-- `self._event_ch.close()`. -/
def stream_close (s : TokStream) : TokStream := { s with closed := true }

/-- `end_input()` (token_stream.py lines 158-160): `self.flush()` then
`self._event_ch.close()`. -/
def stream_end_input (tokenize_fnc : Str → List Str) (s : TokStream) :
    Except PyErr (TokStream × List TokenData) :=
  match stream_flush tokenize_fnc s with
  | .error e => .error e
  | .ok r => .ok (stream_close r.1, r.2)

/-- A scripted operation against the buffer. -/
inductive TokOp where
  | push (text : Str)
  | flush
deriving DecidableEq

/-- Run a script of pushes and flushes, collecting every emission. -/
def run_ops (tokenize_fnc : Str → List Str) (min_token_len min_ctx_len : Nat) :
    TokState → List TokOp → TokState × List TokenData
  | st, [] => (st, [])
  | st, op :: rest =>
    let r :=
      match op with
      | .push t => push_text tokenize_fnc min_token_len min_ctx_len st t
      | .flush => flush tokenize_fnc st
    let r2 := run_ops tokenize_fnc min_token_len min_ctx_len r.1 rest
    (r2.1, r.2 ++ r2.2)

/-- The words carried by a list of emissions, in order. -/
def flat_words (ems : List TokenData) : List Str :=
  (ems.map (fun td => pyWords td.token)).flatten

/- Lemma toolkit for `pyWords` and the whitespace predicates. -/

theorem ends_with_ws_cons (c : Char) (l : Str) (h : l ≠ []) :
    ends_with_ws (c :: l) = ends_with_ws l := by
  match l with
  | [] => exact absurd rfl h
  | d :: t => rfl

theorem ends_with_ws_append (a b : Str) (h : b ≠ []) :
    ends_with_ws (a ++ b) = ends_with_ws b := by
  induction a with
  | nil => rfl
  | cons c a' ih =>
    rw [List.cons_append,
      ends_with_ws_cons c (a' ++ b) (fun hh => h (List.append_eq_nil.mp hh).2), ih]

theorem lstrip_length_le (s : Str) : (lstrip s).length ≤ s.length := by
  induction s with
  | nil => simp [lstrip]
  | cons c t ih =>
    simp only [lstrip]
    split
    · exact le_trans ih (by simp)
    · simp

theorem lstrip_ends_ws : ∀ s : Str, ends_with_ws s = true →
    ends_ws_or_empty (lstrip s)
  | [], h => by cases h
  | c :: t, h => by
    by_cases hc : c.isWhitespace
    · simp only [lstrip, if_pos hc]
      match t with
      | [] => exact Or.inl rfl
      | d :: t' =>
        exact lstrip_ends_ws (d :: t')
          (by rwa [ends_with_ws_cons c (d :: t') (by simp)] at h)
    · simp only [lstrip, if_neg hc]
      exact Or.inr h

theorem pyWordsAux_cons_ws (c : Char) (t acc : Str) (hc : c.isWhitespace = true) :
    pyWordsAux (c :: t) acc =
      if acc = [] then pyWordsAux t [] else acc.reverse :: pyWordsAux t [] := by
  simp only [pyWordsAux, hc, if_true]

theorem pyWordsAux_cons_nonws (c : Char) (t acc : Str)
    (hc : c.isWhitespace = false) :
    pyWordsAux (c :: t) acc = pyWordsAux t (c :: acc) := by
  simp [pyWordsAux, hc]

theorem pyWordsAux_append_left : ∀ (a : Str), a ≠ [] → ends_with_ws a = true →
    ∀ (b acc : Str), pyWordsAux (a ++ b) acc = pyWordsAux a acc ++ pyWordsAux b []
  | [], h, _, _, _ => absurd rfl h
  | [c], _, hw, b, acc => by
    have hc : c.isWhitespace = true := hw
    rw [List.cons_append, List.nil_append, pyWordsAux_cons_ws c b acc hc,
      pyWordsAux_cons_ws c [] acc hc]
    by_cases hacc : acc = []
    · simp [hacc, pyWordsAux]
    · simp [hacc, pyWordsAux]
  | c :: d :: t, _, hw, b, acc => by
    have hw' : ends_with_ws (d :: t) = true := by
      rwa [ends_with_ws_cons c (d :: t) (by simp)] at hw
    by_cases hc : c.isWhitespace
    · rw [List.cons_append, pyWordsAux_cons_ws c ((d :: t) ++ b) acc hc,
        pyWordsAux_cons_ws c (d :: t) acc hc]
      by_cases hacc : acc = []
      · simp only [hacc, if_true, reduceIte]
        exact pyWordsAux_append_left (d :: t) (by simp) hw' b []
      · simp only [hacc, if_false, reduceIte]
        rw [pyWordsAux_append_left (d :: t) (by simp) hw' b []]
        simp
    · have hc' : c.isWhitespace = false := by simpa using hc
      rw [List.cons_append, pyWordsAux_cons_nonws c ((d :: t) ++ b) acc hc',
        pyWordsAux_cons_nonws c (d :: t) acc hc']
      exact pyWordsAux_append_left (d :: t) (by simp) hw' b (c :: acc)

theorem pyWordsAux_append_right : ∀ (a b acc : Str), starts_with_ws b = true →
    pyWordsAux (a ++ b) acc = pyWordsAux a acc ++ pyWordsAux b []
  | [], b, acc, hb => by
    match b, hb with
    | c :: b', hb =>
      have hc : c.isWhitespace = true := hb
      rw [List.nil_append, pyWordsAux_cons_ws c b' acc hc,
        pyWordsAux_cons_ws c b' [] hc]
      by_cases hacc : acc = []
      · simp [hacc, pyWordsAux]
      · simp [hacc, pyWordsAux]
  | c :: a', b, acc, hb => by
    by_cases hc : c.isWhitespace
    · rw [List.cons_append, pyWordsAux_cons_ws c (a' ++ b) acc hc,
        pyWordsAux_cons_ws c a' acc hc]
      by_cases hacc : acc = []
      · simp only [hacc, reduceIte]
        exact pyWordsAux_append_right a' b [] hb
      · simp only [hacc, reduceIte]
        rw [pyWordsAux_append_right a' b [] hb]
        simp
    · have hc' : c.isWhitespace = false := by simpa using hc
      rw [List.cons_append, pyWordsAux_cons_nonws c (a' ++ b) acc hc',
        pyWordsAux_cons_nonws c a' acc hc']
      exact pyWordsAux_append_right a' b (c :: acc) hb

theorem pyWordsAux_append_ws_char : ∀ (a acc : Str) (c : Char),
    c.isWhitespace = true → pyWordsAux (a ++ [c]) acc = pyWordsAux a acc
  | [], acc, c, hc => by
    rw [List.nil_append, pyWordsAux_cons_ws c [] acc hc]
    by_cases hacc : acc = []
    · simp [hacc, pyWordsAux]
    · simp [hacc, pyWordsAux]
  | d :: a', acc, c, hc => by
    by_cases hd : d.isWhitespace
    · rw [List.cons_append, pyWordsAux_cons_ws d (a' ++ [c]) acc hd,
        pyWordsAux_cons_ws d a' acc hd,
        pyWordsAux_append_ws_char a' [] c hc]
    · have hd' : d.isWhitespace = false := by simpa using hd
      rw [List.cons_append, pyWordsAux_cons_nonws d (a' ++ [c]) acc hd',
        pyWordsAux_cons_nonws d a' acc hd',
        pyWordsAux_append_ws_char a' (d :: acc) c hc]

theorem pyWordsAux_all_nonws : ∀ (w acc : Str),
    (∀ c ∈ w, c.isWhitespace = false) → ¬(acc = [] ∧ w = []) →
    pyWordsAux w acc = [acc.reverse ++ w]
  | [], acc, _, hne => by
    have : acc ≠ [] := fun h => hne ⟨h, rfl⟩
    simp [pyWordsAux, this]
  | c :: w', acc, hw, _ => by
    have hc : c.isWhitespace = false := hw c (by simp)
    rw [pyWordsAux_cons_nonws c w' acc hc,
      pyWordsAux_all_nonws w' (c :: acc) (fun d hd => hw d (by simp [hd]))
        (by simp)]
    simp

theorem pyWords_word (w : Str) (hne : w ≠ [])
    (hw : ∀ c ∈ w, c.isWhitespace = false) : pyWords w = [w] := by
  unfold pyWords
  rw [pyWordsAux_all_nonws w [] hw (fun h => hne h.2)]
  simp

theorem pyWordsAux_mem : ∀ (s acc : Str), (∀ c ∈ acc, c.isWhitespace = false) →
    ∀ w ∈ pyWordsAux s acc, w ≠ [] ∧ ∀ c ∈ w, c.isWhitespace = false
  | [], acc, hacc, w, hw => by
    by_cases h : acc = []
    · simp [pyWordsAux, h] at hw
    · simp only [pyWordsAux, h, if_false, reduceIte, List.mem_singleton] at hw
      subst hw
      refine ⟨by simpa using h, ?_⟩
      intro c hc
      exact hacc c (List.mem_reverse.mp hc)
  | c :: t, acc, hacc, w, hw => by
    by_cases hc : c.isWhitespace
    · rw [pyWordsAux_cons_ws c t acc hc] at hw
      by_cases hacc' : acc = []
      · rw [if_pos hacc'] at hw
        exact pyWordsAux_mem t [] (by simp) w hw
      · rw [if_neg hacc'] at hw
        rcases List.mem_cons.mp hw with hw | hw
        · subst hw
          refine ⟨by simpa using hacc', ?_⟩
          intro d hd
          exact hacc d (List.mem_reverse.mp hd)
        · exact pyWordsAux_mem t [] (by simp) w hw
    · have hc' : c.isWhitespace = false := by simpa using hc
      rw [pyWordsAux_cons_nonws c t acc hc'] at hw
      exact pyWordsAux_mem t (c :: acc)
        (fun d hd => by
          rcases List.mem_cons.mp hd with hd | hd
          · subst hd; exact hc'
          · exact hacc d hd) w hw

theorem pyWords_mem (s : Str) :
    ∀ w ∈ pyWords s, w ≠ [] ∧ ∀ c ∈ w, c.isWhitespace = false :=
  pyWordsAux_mem s [] (by simp)

theorem pyWordsAux_eq_nil : ∀ (s acc : Str), pyWordsAux s acc = [] →
    acc = [] ∧ ∀ c ∈ s, c.isWhitespace = true
  | [], acc, h => by
    by_cases hacc : acc = []
    · exact ⟨hacc, by simp⟩
    · simp [pyWordsAux, hacc] at h
  | c :: t, acc, h => by
    by_cases hc : c.isWhitespace
    · rw [pyWordsAux_cons_ws c t acc hc] at h
      by_cases hacc : acc = []
      · rw [if_pos hacc] at h
        have := pyWordsAux_eq_nil t [] h
        exact ⟨hacc, fun d hd => by
          rcases List.mem_cons.mp hd with hd | hd
          · subst hd; exact hc
          · exact this.2 d hd⟩
      · rw [if_neg hacc] at h
        cases h
    · have hc' : c.isWhitespace = false := by simpa using hc
      rw [pyWordsAux_cons_nonws c t acc hc'] at h
      have := pyWordsAux_eq_nil t (c :: acc) h
      cases this.1

theorem all_ws_ends : ∀ s : Str, (∀ c ∈ s, c.isWhitespace = true) →
    ends_ws_or_empty s
  | [], _ => Or.inl rfl
  | [c], h => Or.inr (h c (by simp))
  | c :: d :: t, h => by
    have := all_ws_ends (d :: t) (fun e he => h e (by simp [List.mem_cons] at he ⊢; tauto))
    rcases this with h' | h'
    · cases h'
    · exact Or.inr (by rwa [ends_with_ws_cons c (d :: t) (by simp)])

theorem pyWords_lstrip (s : Str) : pyWords (lstrip s) = pyWords s := by
  induction s with
  | nil => rfl
  | cons c t ih =>
    by_cases hc : c.isWhitespace
    · simp only [lstrip, if_pos hc]
      rw [ih]
      unfold pyWords
      rw [pyWordsAux_cons_ws c t [] hc]
      simp
    · simp only [lstrip, if_neg hc]

theorem pyWordsAux_cons_decomp : ∀ (s acc w : Str) (rest : List Str),
    acc ≠ [] → pyWordsAux s acc = w :: rest →
    ∃ m q, s = m ++ q ∧ (∀ c ∈ m, c.isWhitespace = false) ∧
      w = acc.reverse ++ m ∧ (q = [] ∨ starts_with_ws q = true) ∧
      pyWordsAux q [] = rest
  | [], acc, w, rest, hacc, h => by
    simp only [pyWordsAux, hacc, if_false, reduceIte] at h
    injection h with h1 h2
    exact ⟨[], [], by simp, by simp, by simp [h1.symm], Or.inl rfl,
      by rw [← h2]; rfl⟩
  | c :: t, acc, w, rest, hacc, h => by
    by_cases hc : c.isWhitespace = true
    · rw [pyWordsAux_cons_ws c t acc hc, if_neg hacc] at h
      injection h with h1 h2
      refine ⟨[], c :: t, by simp, by simp, by simp [h1.symm], Or.inr hc, ?_⟩
      rw [pyWordsAux_cons_ws c t [] hc, if_pos rfl]
      exact h2
    · have hc' : c.isWhitespace = false := by simpa using hc
      rw [pyWordsAux_cons_nonws c t acc hc'] at h
      obtain ⟨m, q, ht, hm, hw, hq, hr⟩ :=
        pyWordsAux_cons_decomp t (c :: acc) w rest (by simp) h
      refine ⟨c :: m, q, by simp [ht], ?_, ?_, hq, hr⟩
      · intro d hd
        rcases List.mem_cons.mp hd with hd | hd
        · subst hd; exact hc'
        · exact hm d hd
      · rw [hw]
        simp

theorem pyWords_cons_decomp : ∀ (s w : Str) (rest : List Str),
    pyWords s = w :: rest →
    ∃ p m q, s = p ++ (m ++ q) ∧ (∀ c ∈ p, c.isWhitespace = true) ∧ w = m ∧
      m ≠ [] ∧ (∀ c ∈ m, c.isWhitespace = false) ∧
      (q = [] ∨ starts_with_ws q = true) ∧ pyWords q = rest
  | [], w, rest, h => by cases h
  | c :: t, w, rest, h => by
    by_cases hc : c.isWhitespace = true
    · have h' : pyWords t = w :: rest := by
        unfold pyWords at h ⊢
        rwa [pyWordsAux_cons_ws c t [] hc, if_pos rfl] at h
      obtain ⟨p, m, q, ht, hp, hw, hm, hmc, hq, hr⟩ :=
        pyWords_cons_decomp t w rest h'
      refine ⟨c :: p, m, q, by simp [ht], ?_, hw, hm, hmc, hq, hr⟩
      intro d hd
      rcases List.mem_cons.mp hd with hd | hd
      · subst hd; exact hc
      · exact hp d hd
    · have hc' : c.isWhitespace = false := by simpa using hc
      have h' : pyWordsAux t [c] = w :: rest := by
        unfold pyWords at h
        rwa [pyWordsAux_cons_nonws c t [] hc'] at h
      obtain ⟨m, q, ht, hm, hw, hq, hr⟩ :=
        pyWordsAux_cons_decomp t [c] w rest (by simp) h'
      refine ⟨[], c :: m, q, by simp [ht], by simp, by simpa using hw, by simp,
        ?_, hq, hr⟩
      intro d hd
      rcases List.mem_cons.mp hd with hd | hd
      · subst hd; exact hc'
      · exact hm d hd

theorem findIdx_after_ws_run : ∀ (p w q : Str), (∀ c ∈ p, c.isWhitespace = true) →
    w ≠ [] → (∀ c ∈ w, c.isWhitespace = false) →
    findIdx (p ++ (w ++ q)) w = some p.length
  | [], w, q, _, hne, _ => by
    match w, hne with
    | d :: w', _ =>
      simp only [List.nil_append, List.cons_append, findIdx]
      rw [if_pos ?hp]
      case hp =>
        exact List.isPrefixOf_iff_prefix.mpr (List.prefix_append (d :: w') q)
      rfl
  | c :: p', w, q, hp, hne, hw => by
    simp only [List.cons_append, findIdx]
    have hnp : w.isPrefixOf (c :: (p' ++ (w ++ q))) = false := by
      match w, hne with
      | d :: w', _ =>
        have hd : d.isWhitespace = false := hw d (by simp)
        have hc : c.isWhitespace = true := hp c (by simp)
        have hdc : (d == c) = false := by
          refine beq_eq_false_iff_ne.mpr ?_
          intro hh
          rw [hh, hc] at hd
          cases hd
        simp [List.isPrefixOf, hdc]
    rw [if_neg (by simp [hnp])]
    rw [show p'.append (w ++ q) = p' ++ (w ++ q) from rfl]
    rw [findIdx_after_ws_run p' w q (fun d hd => hp d (by simp [hd])) hne hw]
    rfl

theorem pyWords_consume (s tok : Str) (rest : List Str)
    (h : pyWords s = tok :: rest) :
    pyWords (lstrip (s.drop (findMax0 s tok + tok.length))) = rest ∧
    (lstrip (s.drop (findMax0 s tok + tok.length))).length < s.length ∧
    (ends_ws_or_empty s →
      ends_ws_or_empty (lstrip (s.drop (findMax0 s tok + tok.length)))) := by
  obtain ⟨p, m, q, hs, hp, hw, hm, hmc, hq, hr⟩ := pyWords_cons_decomp s tok rest h
  subst hw
  have hfind : findIdx s tok = some p.length := by
    rw [hs]
    exact findIdx_after_ws_run p tok q hp hm hmc
  have hmax : findMax0 s tok = p.length := by
    rw [findMax0, hfind]
    rfl
  have hdrop : s.drop (findMax0 s tok + tok.length) = q := by
    rw [hmax, hs, ← List.append_assoc]
    have : p.length + tok.length = (p ++ tok).length := by simp
    rw [this, List.drop_left]
  rw [hdrop]
  refine ⟨by rw [pyWords_lstrip]; exact hr, ?_, ?_⟩
  · have h1 : (lstrip q).length ≤ q.length := lstrip_length_le q
    have h2 : s.length = p.length + tok.length + q.length := by
      rw [hs]; simp [Nat.add_assoc]
    have h3 : 1 ≤ tok.length := by
      match tok, hm with
      | c :: t, _ => simp
    omega
  · intro hends
    match q with
    | [] => exact Or.inl rfl
    | d :: q' =>
      have hsne : ends_with_ws s = true := by
        rcases hends with h' | h'
        · rw [h'] at hs
          cases (by simpa using hs.symm : False)
        · exact h'
      have : ends_with_ws (d :: q') = true := by
        rw [hs, ← List.append_assoc] at hsne
        rwa [ends_with_ws_append (p ++ tok) (d :: q') (by simp)] at hsne
      exact lstrip_ends_ws (d :: q') this

theorem pyWords_out_buf_append (ob tok : Str) (hne : tok ≠ [])
    (hw : ∀ c ∈ tok, c.isWhitespace = false) :
    pyWords (out_buf_append ob tok) = pyWords ob ++ [tok] := by
  unfold out_buf_append
  by_cases hob : ob = []
  · rw [if_pos hob, hob]
    have h1 := pyWords_word tok hne hw
    unfold pyWords at h1 ⊢
    simp [h1, pyWordsAux]
  · rw [if_neg hob]
    unfold pyWords
    rw [pyWordsAux_append_left (ob ++ [' ']) (by simp)
      (by rw [ends_with_ws_append ob [' '] (by simp)]; rfl) tok []]
    rw [pyWordsAux_append_ws_char ob [] ' ' (by decide)]
    have h1 := pyWords_word tok hne hw
    unfold pyWords at h1
    rw [h1]

theorem joinSpace_ne_nil : ∀ (l : List Str), l ≠ [] → (∀ w ∈ l, w ≠ []) →
    joinSpace l ≠ []
  | [w], _, hw => by simpa [joinSpace] using hw w (by simp)
  | w :: v :: t, _, hw => by
    simp only [joinSpace]
    intro h
    exact hw w (by simp) (List.append_eq_nil.mp h).1

theorem pyWords_joinSpace : ∀ (l : List Str),
    (∀ w ∈ l, w ≠ [] ∧ ∀ c ∈ w, c.isWhitespace = false) →
    pyWords (joinSpace l) = l
  | [], _ => rfl
  | [w], h => by
    simp only [joinSpace]
    exact pyWords_word w (h w (by simp)).1 (h w (by simp)).2
  | w :: v :: t, h => by
    simp only [joinSpace]
    unfold pyWords
    rw [pyWordsAux_append_right w (' ' :: joinSpace (v :: t)) [] rfl]
    rw [pyWordsAux_cons_ws ' ' (joinSpace (v :: t)) [] (by decide), if_pos rfl]
    have hw := h w (by simp)
    have h1 := pyWords_word w hw.1 hw.2
    unfold pyWords at h1
    rw [h1]
    have h2 := pyWords_joinSpace (v :: t) (fun u hu => h u (by simp [hu]))
    unfold pyWords at h2
    rw [h2]
    rfl

theorem pyWords_append_safe (x y : Str) (h : whitespace_safe x y) :
    pyWords (x ++ y) = pyWords x ++ pyWords y := by
  rcases h with h | h | h | h
  · subst h; rfl
  · subst h; simp [pyWords, pyWordsAux]
  · have hx : x ≠ [] := by
      intro hh
      rw [hh] at h
      cases h
    exact pyWordsAux_append_left x hx h y []
  · exact pyWordsAux_append_right x y [] h

theorem splitAtFirstDot_spec : ∀ (t pre suf : Str),
    splitAtFirstDot t = some (pre, suf) →
    t = pre ++ suf ∧ pre ≠ [] ∧ suf.length < t.length
  | [], pre, suf, h => by cases h
  | c :: t', pre, suf, h => by
    by_cases hc : c = '.'
    · simp only [splitAtFirstDot, if_pos hc] at h
      injection h with h1
      rw [Prod.mk.injEq] at h1
      obtain ⟨hpre, hsuf⟩ := h1
      subst hpre
      subst hsuf
      exact ⟨rfl, by simp, by simp⟩
    · simp only [splitAtFirstDot, if_neg hc] at h
      match hsp : splitAtFirstDot t' with
      | none => rw [hsp] at h; cases h
      | some (p, s) =>
        rw [hsp] at h
        injection h with h1
        rw [Prod.mk.injEq] at h1
        obtain ⟨hpre, hsuf⟩ := h1
        subst hpre
        subst hsuf
        obtain ⟨ht, hp, hl⟩ := splitAtFirstDot_spec t' p s hsp
        exact ⟨by rw [ht]; simp, by simp, by simp [Nat.lt_succ_of_lt hl]⟩

theorem splitAtFirstDot_append_some : ∀ (x y pre suf : Str),
    splitAtFirstDot x = some (pre, suf) →
    splitAtFirstDot (x ++ y) = some (pre, suf ++ y)
  | [], _, _, _, h => by cases h
  | c :: t, y, pre, suf, h => by
    by_cases hc : c = '.'
    · simp only [splitAtFirstDot, if_pos hc] at h ⊢
      injection h with h1
      rw [Prod.mk.injEq] at h1
      obtain ⟨hpre, hsuf⟩ := h1
      subst hpre
      subst hsuf
      rfl
    · simp only [splitAtFirstDot, if_neg hc, List.cons_append] at h ⊢
      match hsp : splitAtFirstDot t with
      | none => rw [hsp] at h; cases h
      | some (p, s) =>
        rw [hsp] at h
        injection h with h1
        rw [Prod.mk.injEq] at h1
        obtain ⟨hpre, hsuf⟩ := h1
        subst hpre
        subst hsuf
        rw [show t.append y = t ++ y from rfl,
          splitAtFirstDot_append_some t y p s hsp]

theorem splitAtFirstDot_append_none_none : ∀ (x y : Str),
    splitAtFirstDot x = none → splitAtFirstDot y = none →
    splitAtFirstDot (x ++ y) = none
  | [], y, _, hy => by simpa using hy
  | c :: t, y, hx, hy => by
    by_cases hc : c = '.'
    · simp only [splitAtFirstDot, if_pos hc] at hx
      cases hx
    · simp only [splitAtFirstDot, if_neg hc, List.cons_append] at hx ⊢
      match hsp : splitAtFirstDot t with
      | some (p, s) => rw [hsp] at hx; cases hx
      | none =>
        rw [show t.append y = t ++ y from rfl,
          splitAtFirstDot_append_none_none t y hsp hy]

theorem splitAtFirstDot_append_none_some : ∀ (x y p s : Str),
    splitAtFirstDot x = none → splitAtFirstDot y = some (p, s) →
    splitAtFirstDot (x ++ y) = some (x ++ p, s)
  | [], y, p, s, _, hy => by simpa using hy
  | c :: t, y, p, s, hx, hy => by
    by_cases hc : c = '.'
    · simp only [splitAtFirstDot, if_pos hc] at hx
      cases hx
    · simp only [splitAtFirstDot, if_neg hc, List.cons_append] at hx ⊢
      match hsp : splitAtFirstDot t with
      | some (q, r) => rw [hsp] at hx; cases hx
      | none =>
        rw [show t.append y = t ++ y from rfl,
          splitAtFirstDot_append_none_some t y p s hsp hy]

/-- The words of a text, split additionally at each period: the normal
form that any run of the buffered word stream can be related. -/
def pwordsFuel : Nat → Str → List Str
  | 0, t => pyWords t
  | fuel + 1, t =>
    match splitAtFirstDot t with
    | some (pre, suf) => pyWords pre ++ pwordsFuel fuel suf
    | none => pyWords t

/-- The period-then-whitespace word decomposition of a text. -/
def pwords (t : Str) : List Str := pwordsFuel t.length t

theorem pwordsFuel_irrel : ∀ (fuel fuel' : Nat) (t : Str),
    t.length ≤ fuel → t.length ≤ fuel' → pwordsFuel fuel t = pwordsFuel fuel' t
  | 0, fuel', t, h, _ => by
    match t, h with
    | [], _ =>
      match fuel' with
      | 0 => rfl
      | n + 1 => rfl
  | fuel + 1, 0, t, _, h' => by
    match t, h' with
    | [], _ => rfl
  | fuel + 1, fuel' + 1, t, h, h' => by
    simp only [pwordsFuel]
    match hsp : splitAtFirstDot t with
    | none => rfl
    | some (pre, suf) =>
      have hl := (splitAtFirstDot_spec t pre suf hsp).2.2
      show pyWords pre ++ pwordsFuel fuel suf = pyWords pre ++ pwordsFuel fuel' suf
      rw [pwordsFuel_irrel fuel fuel' suf (by omega) (by omega)]

theorem pwords_eq_none (t : Str) (h : splitAtFirstDot t = none) :
    pwords t = pyWords t := by
  unfold pwords
  match ht : t.length with
  | 0 => rfl
  | n + 1 => simp only [pwordsFuel, h]

theorem pwords_eq_some (t pre suf : Str) (h : splitAtFirstDot t = some (pre, suf)) :
    pwords t = pyWords pre ++ pwords suf := by
  obtain ⟨ht, hp, hl⟩ := splitAtFirstDot_spec t pre suf h
  unfold pwords
  match hlen : t.length with
  | 0 =>
    rw [hlen] at hl
    omega
  | n + 1 =>
    simp only [pwordsFuel, h]
    rw [pwordsFuel_irrel n suf.length suf (by omega) (by omega)]

theorem starts_with_ws_append (a b : Str) (ha : a ≠ []) :
    starts_with_ws (a ++ b) = starts_with_ws a := by
  match a, ha with
  | c :: t, _ => rfl

theorem pwords_append_safe : ∀ (n : Nat) (x y : Str), x.length ≤ n →
    whitespace_safe x y → pwords (x ++ y) = pwords x ++ pwords y := by
  intro n
  induction n with
  | zero =>
    intro x y hx _
    match x, hx with
    | [], _ =>
      simp only [List.nil_append]
      have : pwords [] = [] := by rw [pwords_eq_none [] rfl]; rfl
      rw [this, List.nil_append]
  | succ n ih =>
    intro x y hx hsafe
    match hsx : splitAtFirstDot x with
    | some (pre, suf) =>
      obtain ⟨hxe, hpre, hl⟩ := splitAtFirstDot_spec x pre suf hsx
      rw [pwords_eq_some (x ++ y) pre (suf ++ y)
        (splitAtFirstDot_append_some x y pre suf hsx)]
      rw [pwords_eq_some x pre suf hsx]
      rw [ih suf y (by omega) ?hsafe2]
      · rw [List.append_assoc]
      case hsafe2 =>
        rcases hsafe with h | h | h | h
        · rw [h] at hsx; cases hsx
        · exact Or.inr (Or.inl h)
        · match hsuf : suf with
          | [] => exact Or.inl rfl
          | d :: s' =>
            refine Or.inr (Or.inr (Or.inl ?_))
            rw [hxe, ends_with_ws_append pre (d :: s') (by simp)] at h
            exact h
        · exact Or.inr (Or.inr (Or.inr h))
    | none =>
      match hsy : splitAtFirstDot y with
      | none =>
        rw [pwords_eq_none (x ++ y) (splitAtFirstDot_append_none_none x y hsx hsy)]
        rw [pwords_eq_none x hsx, pwords_eq_none y hsy]
        exact pyWords_append_safe x y hsafe
      | some (py, sy) =>
        obtain ⟨hye, hpy, _⟩ := splitAtFirstDot_spec y py sy hsy
        rw [pwords_eq_some (x ++ y) (x ++ py) sy
          (splitAtFirstDot_append_none_some x y py sy hsx hsy)]
        rw [pwords_eq_none x hsx, pwords_eq_some y py sy hsy]
        have hxpy : pyWords (x ++ py) = pyWords x ++ pyWords py := by
          apply pyWords_append_safe
          rcases hsafe with h | h | h | h
          · exact Or.inl h
          · rw [h] at hsy; cases hsy
          · exact Or.inr (Or.inr (Or.inl h))
          · refine Or.inr (Or.inr (Or.inr ?_))
            rw [hye, starts_with_ws_append py sy hpy] at h
            exact h
        rw [hxpy, List.append_assoc]

theorem pyWords_nil : pyWords [] = [] := rfl

/-- The words still held by the buffers, out-buffer first. -/
def pend (st : TokState) : List Str := pyWords st.out_buf ++ pyWords st.in_buf

theorem flat_words_nil : flat_words [] = [] := rfl

theorem flat_words_append (a b : List TokenData) :
    flat_words (a ++ b) = flat_words a ++ flat_words b := by
  simp [flat_words]

theorem flat_words_single (td : TokenData) :
    flat_words [td] = pyWords td.token := by
  simp [flat_words]

/-- The state the multi-token branch of `_process_buffer` hands to the next
loop iteration. -/
def mstate (mtl : Nat) (st : TokState) (tok : Str) : TokState :=
  { st with
    in_buf := lstrip (st.in_buf.drop (findMax0 st.in_buf tok + tok.length))
    out_buf :=
      if should_emit (out_buf_append st.out_buf tok) mtl then []
      else out_buf_append st.out_buf tok }

theorem process_buffer_loop_break (tokf : Str → List Str) (mtl : Nat)
    (fuel : Nat) (st : TokState) (h : (tokf st.in_buf).length ≤ 1) :
    process_buffer_loop tokf mtl false (fuel + 1) st = (st, []) := by
  simp only [process_buffer_loop]
  rw [if_pos ⟨h, trivial⟩]

theorem process_buffer_loop_nil (tokf : Str → List Str) (mtl : Nat)
    (force : Bool) (fuel : Nat) (st : TokState) (h : tokf st.in_buf = []) :
    process_buffer_loop tokf mtl force (fuel + 1) st = (st, []) := by
  simp only [process_buffer_loop, h]
  by_cases hf : force = false
  · rw [if_pos ⟨by simp, hf⟩]
  · rw [if_neg (by simp [hf])]

theorem process_buffer_loop_single (tokf : Str → List Str) (mtl : Nat)
    (fuel : Nat) (st : TokState) (tok : Str) (h : tokf st.in_buf = [tok]) :
    process_buffer_loop tokf mtl true (fuel + 1) st =
      if should_emit (out_buf_append st.out_buf tok) mtl then
        ({ st with in_buf := [], out_buf := [] },
         [{ token := out_buf_append st.out_buf tok, segment_id := st.segment_id }])
      else
        ({ st with in_buf := [], out_buf := out_buf_append st.out_buf tok }, []) := by
  simp only [process_buffer_loop, h]
  rw [if_neg (by simp)]

theorem process_buffer_loop_multi (tokf : Str → List Str) (mtl : Nat)
    (force : Bool) (fuel : Nat) (st : TokState) (tok tok2 : Str)
    (more : List Str) (h : tokf st.in_buf = tok :: tok2 :: more) :
    process_buffer_loop tokf mtl force (fuel + 1) st =
      ((process_buffer_loop tokf mtl force fuel (mstate mtl st tok)).1,
       (if should_emit (out_buf_append st.out_buf tok) mtl then
          [{ token := out_buf_append st.out_buf tok, segment_id := st.segment_id }]
        else []) ++
        (process_buffer_loop tokf mtl force fuel (mstate mtl st tok)).2) := by
  simp only [process_buffer_loop, h, mstate]
  rw [if_neg (by simp)]

theorem process_buffer_loop_words (mtl : Nat) (force : Bool) :
    ∀ (fuel : Nat) (st : TokState), st.in_buf.length < fuel →
      flat_words (process_buffer_loop pyWords mtl force fuel st).2 ++
        pend (process_buffer_loop pyWords mtl force fuel st).1 = pend st ∧
      (force = true →
        pyWords (process_buffer_loop pyWords mtl force fuel st).1.in_buf = [] ∧
        ends_ws_or_empty (process_buffer_loop pyWords mtl force fuel st).1.in_buf) ∧
      (ends_ws_or_empty st.in_buf →
        ends_ws_or_empty (process_buffer_loop pyWords mtl force fuel st).1.in_buf) := by
  intro fuel
  induction fuel with
  | zero => intro st h; omega
  | succ fuel ih =>
    intro st hlen
    match htk : pyWords st.in_buf with
    | [] =>
      rw [process_buffer_loop_nil pyWords mtl force fuel st htk]
      have hall := pyWordsAux_eq_nil st.in_buf [] htk
      refine ⟨by simp [flat_words_nil], ?_, fun h => h⟩
      intro _
      exact ⟨htk, all_ws_ends st.in_buf hall.2⟩
    | [tok] =>
      have htokw := pyWords_mem st.in_buf tok (by rw [htk]; simp)
      have hob := pyWords_out_buf_append st.out_buf tok htokw.1 htokw.2
      match force with
      | false =>
        rw [process_buffer_loop_break pyWords mtl fuel st (by rw [htk]; simp)]
        exact ⟨by simp [flat_words_nil], by simp, fun h => h⟩
      | true =>
        rw [process_buffer_loop_single pyWords mtl fuel st tok htk]
        by_cases hemit : should_emit (out_buf_append st.out_buf tok) mtl = true
        · rw [if_pos hemit]
          refine ⟨?_, fun _ => ⟨pyWords_nil, Or.inl rfl⟩, fun _ => Or.inl rfl⟩
          show flat_words [_] ++ pend _ = pend st
          rw [flat_words_single]
          simp only [pend, pyWords_nil]
          rw [hob, htk]
          simp
        · rw [if_neg hemit]
          refine ⟨?_, fun _ => ⟨pyWords_nil, Or.inl rfl⟩, fun _ => Or.inl rfl⟩
          show flat_words [] ++ pend _ = pend st
          simp only [pend, pyWords_nil, flat_words]
          rw [hob, htk]
          simp
    | tok :: tok2 :: more =>
      have htokw := pyWords_mem st.in_buf tok (by rw [htk]; simp)
      have hob := pyWords_out_buf_append st.out_buf tok htokw.1 htokw.2
      have hcons := pyWords_consume st.in_buf tok (tok2 :: more) htk
      rw [process_buffer_loop_multi pyWords mtl force fuel st tok tok2 more htk]
      have hlen' : (mstate mtl st tok).in_buf.length < fuel := by
        have h1 := hcons.2.1
        simp only [mstate]
        omega
      have hrec := ih (mstate mtl st tok) hlen'
      have hin' : pyWords (mstate mtl st tok).in_buf = tok2 :: more := hcons.1
      refine ⟨?_, hrec.2.1, fun hends => hrec.2.2 (hcons.2.2 hends)⟩
      rw [flat_words_append, List.append_assoc, hrec.1]
      simp only [pend, hin', htk]
      by_cases hemit : should_emit (out_buf_append st.out_buf tok) mtl = true
      · rw [if_pos hemit, flat_words_single]
        simp only [mstate, if_pos hemit]
        rw [hob]
        simp [pyWords_nil]
      · rw [if_neg hemit]
        simp only [mstate, if_neg hemit]
        rw [hob]
        simp [flat_words]

theorem process_buffer_words (mtl mcl : Nat) (force : Bool) (st : TokState) :
    flat_words (process_buffer pyWords mtl mcl force st).2 ++
      pend (process_buffer pyWords mtl mcl force st).1 = pend st ∧
    (force = true →
      pyWords (process_buffer pyWords mtl mcl force st).1.in_buf = [] ∧
      ends_ws_or_empty (process_buffer pyWords mtl mcl force st).1.in_buf) ∧
    (ends_ws_or_empty st.in_buf →
      ends_ws_or_empty (process_buffer pyWords mtl mcl force st).1.in_buf) := by
  unfold process_buffer
  by_cases hg : force = false ∧ st.in_buf.length < mcl
  · rw [if_pos hg]
    refine ⟨by simp [flat_words_nil], ?_, fun h => h⟩
    intro hf
    rw [hf] at hg
    cases hg.1
  · rw [if_neg hg]
    exact process_buffer_loop_words mtl force (st.in_buf.length + 1) st (by omega)

theorem push_text_loop_dot (tokf : Str → List Str) (mtl mcl fuel : Nat)
    (st : TokState) (text pre suf : Str)
    (h : splitAtFirstDot text = some (pre, suf)) :
    push_text_loop tokf mtl mcl (fuel + 1) st text =
      if suf = [] then
        process_buffer tokf mtl mcl true { st with in_buf := st.in_buf ++ pre }
      else
        ((push_text_loop tokf mtl mcl fuel
            (process_buffer tokf mtl mcl true
              { st with in_buf := st.in_buf ++ pre }).1 suf).1,
         (process_buffer tokf mtl mcl true
            { st with in_buf := st.in_buf ++ pre }).2 ++
          (push_text_loop tokf mtl mcl fuel
            (process_buffer tokf mtl mcl true
              { st with in_buf := st.in_buf ++ pre }).1 suf).2) := by
  simp only [push_text_loop, h]

theorem push_text_loop_nodot (tokf : Str → List Str) (mtl mcl fuel : Nat)
    (st : TokState) (text : Str) (h : splitAtFirstDot text = none) :
    push_text_loop tokf mtl mcl (fuel + 1) st text =
      if (st.in_buf ++ text).length < mcl then
        ({ st with in_buf := st.in_buf ++ text }, [])
      else process_buffer tokf mtl mcl false { st with in_buf := st.in_buf ++ text } := by
  simp only [push_text_loop, h]

theorem push_text_loop_words (mtl mcl : Nat) :
    ∀ (fuel : Nat) (text : Str) (st : TokState), text.length < fuel →
      (ends_ws_or_empty st.in_buf ∨ starts_with_ws text = true ∨ text = []) →
      flat_words (push_text_loop pyWords mtl mcl fuel st text).2 ++
        pend (push_text_loop pyWords mtl mcl fuel st text).1 =
        pend st ++ pwords text ∧
      ((ends_ws_or_empty st.in_buf ∧ ends_ws_or_empty text) →
        ends_ws_or_empty (push_text_loop pyWords mtl mcl fuel st text).1.in_buf) := by
  intro fuel
  induction fuel with
  | zero => intro text st h; omega
  | succ fuel ih =>
    intro text st hlen hsafe
    match hsp : splitAtFirstDot text with
    | some (pre, suf) =>
      obtain ⟨hte, hpre, hsl⟩ := splitAtFirstDot_spec text pre suf hsp
      have htne : text ≠ [] := by
        intro hh
        rw [hh] at hsp
        cases hsp
      have hsplit1 : pyWords (st.in_buf ++ pre) =
          pyWords st.in_buf ++ pyWords pre := by
        apply pyWords_append_safe
        rcases hsafe with h | h | h
        · rcases h with h | h
          · exact Or.inl h
          · exact Or.inr (Or.inr (Or.inl h))
        · refine Or.inr (Or.inr (Or.inr ?_))
          rw [hte, starts_with_ws_append pre suf hpre] at h
          exact h
        · exact absurd h htne
      have hpb := process_buffer_words mtl mcl true
        { st with in_buf := st.in_buf ++ pre }
      rw [push_text_loop_dot pyWords mtl mcl fuel st text pre suf hsp]
      have hpendst1 : pend { st with in_buf := st.in_buf ++ pre } =
          pend st ++ pyWords pre := by
        simp only [pend, hsplit1]
        rw [List.append_assoc]
      have hpw : pwords text = pyWords pre ++ pwords suf :=
        pwords_eq_some text pre suf hsp
      by_cases hsuf : suf = []
      · rw [if_pos hsuf]
        constructor
        · rw [hpb.1, hpendst1, hpw, hsuf]
          rw [pwords_eq_none [] rfl, pyWords_nil]
          simp
        · intro _
          exact (hpb.2.1 rfl).2
      · rw [if_neg hsuf]
        have hrec := ih suf
          (process_buffer pyWords mtl mcl true
            { st with in_buf := st.in_buf ++ pre }).1
          (by omega)
          (Or.inl (hpb.2.1 rfl).2)
        constructor
        · rw [flat_words_append, List.append_assoc, hrec.1, ← List.append_assoc,
            hpb.1, hpendst1, hpw]
          rw [List.append_assoc]
        · intro ⟨h1, h2⟩
          apply hrec.2
          refine ⟨(hpb.2.1 rfl).2, ?_⟩
          right
          rw [show ends_with_ws suf = ends_with_ws text from
            (by rw [hte]; exact (ends_with_ws_append pre suf hsuf).symm)]
          rcases h2 with h2 | h2
          · exact absurd h2 htne
          · exact h2
    | none =>
      have hws : whitespace_safe st.in_buf text := by
        rcases hsafe with h | h | h
        · rcases h with h | h
          · exact Or.inl h
          · exact Or.inr (Or.inr (Or.inl h))
        · exact Or.inr (Or.inr (Or.inr h))
        · exact Or.inr (Or.inl h)
      have hsplit : pyWords (st.in_buf ++ text) =
          pyWords st.in_buf ++ pyWords text := pyWords_append_safe _ _ hws
      have hpw : pwords text = pyWords text := pwords_eq_none text hsp
      have hpendst1 : pend { st with in_buf := st.in_buf ++ text } =
          pend st ++ pyWords text := by
        simp only [pend, hsplit]
        rw [List.append_assoc]
      have hends1 : (ends_ws_or_empty st.in_buf ∧ ends_ws_or_empty text) →
          ends_ws_or_empty (st.in_buf ++ text) := by
        intro ⟨h1, h2⟩
        rcases h2 with h2 | h2
        · rw [h2, List.append_nil]
          exact h1
        · right
          have htne : text ≠ [] := by
            intro hh
            rw [hh] at h2
            cases h2
          rw [ends_with_ws_append st.in_buf text htne]
          exact h2
      rw [push_text_loop_nodot pyWords mtl mcl fuel st text hsp]
      by_cases hg : (st.in_buf ++ text).length < mcl
      · rw [if_pos hg]
        constructor
        · rw [flat_words_nil, List.nil_append, hpendst1, hpw]
        · exact hends1
      · rw [if_neg hg]
        have hpb := process_buffer_words mtl mcl false
          { st with in_buf := st.in_buf ++ text }
        constructor
        · rw [hpb.1, hpendst1, hpw]
        · intro hh
          exact hpb.2.2 (hends1 hh)

theorem push_text_words (mtl mcl : Nat) (text : Str) (st : TokState)
    (hsafe : ends_ws_or_empty st.in_buf ∨ starts_with_ws text = true ∨ text = []) :
    flat_words (push_text pyWords mtl mcl st text).2 ++
      pend (push_text pyWords mtl mcl st text).1 = pend st ++ pwords text ∧
    ((ends_ws_or_empty st.in_buf ∧ ends_ws_or_empty text) →
      ends_ws_or_empty (push_text pyWords mtl mcl st text).1.in_buf) :=
  push_text_loop_words mtl mcl (text.length + 1) text st (by omega) hsafe

theorem pyWords_sep_append (ob u : Str) :
    pyWords ((if ob = [] then ob else ob ++ [' ']) ++ u) =
      pyWords ob ++ pyWords u := by
  by_cases hob : ob = []
  · rw [if_pos hob, hob]
    simp [pyWords_nil]
  · rw [if_neg hob]
    unfold pyWords
    rw [pyWordsAux_append_left (ob ++ [' ']) (by simp)
      (by rw [ends_with_ws_append ob [' '] (by simp)]; rfl) u []]
    rw [pyWordsAux_append_ws_char ob [] ' ' (by decide)]

theorem flush_words (st : TokState) :
    flat_words (flush pyWords st).2 = pend st ∧
    (flush pyWords st).1.in_buf = [] ∧ (flush pyWords st).1.out_buf = [] := by
  unfold flush
  by_cases hg : st.in_buf = [] ∧ st.out_buf = []
  · rw [if_pos hg]
    refine ⟨?_, rfl, rfl⟩
    simp [flat_words_nil, pend, hg.1, hg.2, pyWords_nil]
  · rw [if_neg hg]
    refine ⟨?_, rfl, rfl⟩
    by_cases htk : pyWords st.in_buf = []
    · simp only [htk, reduceIte]
      by_cases hob : st.out_buf = []
      · simp [hob, flat_words_nil, pend, htk, pyWords_nil]
      · rw [if_neg hob, flat_words_single]
        simp [pend, htk]
    · have hwmem := pyWords_mem st.in_buf
      have hjoin := pyWords_joinSpace (pyWords st.in_buf) hwmem
      have hjne : joinSpace (pyWords st.in_buf) ≠ [] :=
        joinSpace_ne_nil _ htk (fun w hw => (hwmem w hw).1)
      simp only [if_neg htk]
      have hobne : (if st.out_buf = [] then st.out_buf else st.out_buf ++ [' ']) ++
          joinSpace (pyWords st.in_buf) ≠ [] := by
        intro hh
        exact hjne (List.append_eq_nil.mp hh).2
      rw [if_neg hobne, flat_words_single]
      show pyWords _ = pend st
      rw [pyWords_sep_append st.out_buf (joinSpace (pyWords st.in_buf)), hjoin]
      rfl

theorem run_ops_nil (tokf : Str → List Str) (mtl mcl : Nat) (st : TokState) :
    run_ops tokf mtl mcl st [] = (st, []) := rfl

theorem run_ops_push (tokf : Str → List Str) (mtl mcl : Nat) (st : TokState)
    (t : Str) (rest : List TokOp) :
    run_ops tokf mtl mcl st (.push t :: rest) =
      ((run_ops tokf mtl mcl (push_text tokf mtl mcl st t).1 rest).1,
       (push_text tokf mtl mcl st t).2 ++
         (run_ops tokf mtl mcl (push_text tokf mtl mcl st t).1 rest).2) := by
  simp only [run_ops]

theorem run_ops_flush (tokf : Str → List Str) (mtl mcl : Nat) (st : TokState)
    (rest : List TokOp) :
    run_ops tokf mtl mcl st (.flush :: rest) =
      ((run_ops tokf mtl mcl (flush tokf st).1 rest).1,
       (flush tokf st).2 ++ (run_ops tokf mtl mcl (flush tokf st).1 rest).2) := by
  simp only [run_ops]

/-- C7 counterexample -- with the whitespace word tokenizer,
`min_token_len = 1` and `min_ctx_len = 6`, pushing `"aa bb cc "` then
`"dd"` then flushing emits the tokens `aa`, `bb`, `cc dd`, while pushing
the concatenation `"aa bb cc dd"` then flushing emits `aa`, `bb`, `cc`,
`dd`: the multisets of emitted tokens differ although the split point is
whitespace-safe. -/
theorem split_push_multiset_cex :
    whitespace_safe ("aa bb cc ".toList) ("dd".toList) ∧
    ((run_ops pyWords 1 6 { in_buf := [], out_buf := [], segment_id := 0 }
        [.push ("aa bb cc ".toList), .push ("dd".toList), .flush]).2.map
          TokenData.token =
      [("aa".toList), ("bb".toList), ("cc dd".toList)]) ∧
    ((run_ops pyWords 1 6 { in_buf := [], out_buf := [], segment_id := 0 }
        [.push ("aa bb cc dd".toList), .flush]).2.map TokenData.token =
      [("aa".toList), ("bb".toList), ("cc".toList), ("dd".toList)]) ∧
    ¬ Multiset.ofList
        ((run_ops pyWords 1 6 { in_buf := [], out_buf := [], segment_id := 0 }
          [.push ("aa bb cc ".toList), .push ("dd".toList), .flush]).2.map
            TokenData.token) =
      Multiset.ofList
        ((run_ops pyWords 1 6 { in_buf := [], out_buf := [], segment_id := 0 }
          [.push ("aa bb cc dd".toList), .flush]).2.map TokenData.token) := by
  refine ⟨?_, ?_, ?_, ?_⟩ <;> decide

/-- C7 (amended) -- for the whitespace word tokenizer and any parameters,
`push_text(x); push_text(y); flush()` and `push_text(x + y); flush()` emit
token sequences carrying the same words in the same order (the
concatenations of their tokens' whitespace-separated words coincide),
whenever the split point is whitespace-safe; the grouping of those words
into emitted tokens may differ. -/
theorem split_push_same_words (mtl mcl : Nat) (x y : Str)
    (h : whitespace_safe x y) :
    flat_words (run_ops pyWords mtl mcl
        { in_buf := [], out_buf := [], segment_id := 0 }
        [.push x, .push y, .flush]).2 =
    flat_words (run_ops pyWords mtl mcl
        { in_buf := [], out_buf := [], segment_id := 0 }
        [.push (x ++ y), .flush]).2 := by
  have hst0 : pend { in_buf := [], out_buf := [], segment_id := 0 } = [] := rfl
  have hp1 := push_text_words mtl mcl x
    { in_buf := [], out_buf := [], segment_id := 0 } (Or.inl (Or.inl rfl))
  have hsafe2 : ends_ws_or_empty
      (push_text pyWords mtl mcl
        { in_buf := [], out_buf := [], segment_id := 0 } x).1.in_buf ∨
      starts_with_ws y = true ∨ y = [] := by
    rcases h with h | h | h | h
    · exact Or.inl (hp1.2 ⟨Or.inl rfl, Or.inl h⟩)
    · exact Or.inr (Or.inr h)
    · exact Or.inl (hp1.2 ⟨Or.inl rfl, Or.inr h⟩)
    · exact Or.inr (Or.inl h)
  have hp2 := push_text_words mtl mcl y
    (push_text pyWords mtl mcl
      { in_buf := [], out_buf := [], segment_id := 0 } x).1 hsafe2
  have hf3 := flush_words
    (push_text pyWords mtl mcl
      (push_text pyWords mtl mcl
        { in_buf := [], out_buf := [], segment_id := 0 } x).1 y).1
  have hq1 := push_text_words mtl mcl (x ++ y)
    { in_buf := [], out_buf := [], segment_id := 0 } (Or.inl (Or.inl rfl))
  have hg3 := flush_words
    (push_text pyWords mtl mcl
      { in_buf := [], out_buf := [], segment_id := 0 } (x ++ y)).1
  rw [run_ops_push, run_ops_push, run_ops_flush, run_ops_nil]
  rw [run_ops_push, run_ops_flush, run_ops_nil]
  simp only [List.append_nil]
  rw [flat_words_append, flat_words_append, flat_words_append]
  rw [hf3.1, hg3.1]
  have hL : flat_words (push_text pyWords mtl mcl
        { in_buf := [], out_buf := [], segment_id := 0 } x).2 ++
      (flat_words (push_text pyWords mtl mcl
        (push_text pyWords mtl mcl
          { in_buf := [], out_buf := [], segment_id := 0 } x).1 y).2 ++
        pend (push_text pyWords mtl mcl
          (push_text pyWords mtl mcl
            { in_buf := [], out_buf := [], segment_id := 0 } x).1 y).1) =
      pwords x ++ pwords y := by
    rw [hp2.1]
    rw [← List.append_assoc, hp1.1, hst0, List.nil_append]
  have hR : flat_words (push_text pyWords mtl mcl
        { in_buf := [], out_buf := [], segment_id := 0 } (x ++ y)).2 ++
      pend (push_text pyWords mtl mcl
        { in_buf := [], out_buf := [], segment_id := 0 } (x ++ y)).1 =
      pwords (x ++ y) := by
    rw [hq1.1, hst0, List.nil_append]
  rw [hL, hR]
  exact (pwords_append_safe (x.length) x y (le_refl _) h).symm

/-- C5 counterexample -- forcing `_process_buffer` with a single token
when the tokenizer strips periods (`"hi."` tokenizes to `hi`) and
`min_token_len = 8`: the token is appended to `out_buf` and `in_buf` is
cleared, but nothing is emitted, contrary to the claim that a forced
single token is always emitted. -/
theorem forced_single_token_not_emitted_cex :
    process_buffer words_no_period 8 1 true
        { in_buf := ("hi.".toList), out_buf := [], segment_id := 0 } =
      ({ in_buf := [], out_buf := ("hi".toList), segment_id := 0 }, []) := by
  decide

/-- C5 (amended) -- in `_process_buffer` with `force_process = true`, when
the tokenizer returns exactly one token, that token is appended onto
`out_buf` (space-separated) and `in_buf` is cleared, and `out_buf` is
emitted iff it contains a period or reaches `min_token_len`; otherwise it
is retained for a later emission. -/
theorem process_buffer_forced_single (tokf : Str → List Str)
    (mtl mcl : Nat) (st : TokState) (tok : Str) (h : tokf st.in_buf = [tok]) :
    process_buffer tokf mtl mcl true st =
      if should_emit (out_buf_append st.out_buf tok) mtl then
        ({ st with in_buf := [], out_buf := [] },
         [{ token := out_buf_append st.out_buf tok, segment_id := st.segment_id }])
      else
        ({ st with in_buf := [], out_buf := out_buf_append st.out_buf tok }, []) := by
  unfold process_buffer
  rw [if_neg (by simp)]
  exact process_buffer_loop_single tokf mtl st.in_buf.length st tok h

/-- Witness for `process_buffer_forced_single` at a concrete forced
emission. -/
theorem process_buffer_forced_single_witness :
    process_buffer words_no_period 8 1 true
        { in_buf := ("greetings.".toList), out_buf := [], segment_id := 0 } =
      ({ in_buf := [], out_buf := [], segment_id := 0 },
       [{ token := ("greetings".toList), segment_id := 0 }]) := by
  have h := process_buffer_forced_single words_no_period 8 1
    { in_buf := ("greetings.".toList), out_buf := [], segment_id := 0 }
    ("greetings".toList) (by decide)
  rw [h]
  decide

theorem process_buffer_loop_segid (tokf : Str → List Str) (mtl : Nat)
    (force : Bool) : ∀ (fuel : Nat) (st : TokState),
    (process_buffer_loop tokf mtl force fuel st).1.segment_id = st.segment_id ∧
    ∀ td ∈ (process_buffer_loop tokf mtl force fuel st).2,
      td.segment_id = st.segment_id := by
  intro fuel
  induction fuel with
  | zero => intro st; exact ⟨rfl, by simp [process_buffer_loop]⟩
  | succ fuel ih =>
    intro st
    match htk : tokf st.in_buf with
    | [] =>
      rw [process_buffer_loop_nil tokf mtl force fuel st htk]
      exact ⟨rfl, by simp⟩
    | [tok] =>
      match force with
      | false =>
        rw [process_buffer_loop_break tokf mtl fuel st (by rw [htk]; simp)]
        exact ⟨rfl, by simp⟩
      | true =>
        rw [process_buffer_loop_single tokf mtl fuel st tok htk]
        by_cases hemit : should_emit (out_buf_append st.out_buf tok) mtl = true
        · rw [if_pos hemit]
          exact ⟨rfl, by simp⟩
        · rw [if_neg hemit]
          exact ⟨rfl, by simp⟩
    | tok :: tok2 :: more =>
      rw [process_buffer_loop_multi tokf mtl force fuel st tok tok2 more htk]
      have hrec := ih (mstate mtl st tok)
      have hseg : (mstate mtl st tok).segment_id = st.segment_id := rfl
      refine ⟨by rw [hrec.1, hseg], ?_⟩
      intro td htd
      simp only [List.mem_append] at htd
      rcases htd with htd | htd
      · by_cases hemit : should_emit (out_buf_append st.out_buf tok) mtl = true
        · rw [if_pos hemit] at htd
          simp only [List.mem_singleton] at htd
          rw [htd]
        · rw [if_neg hemit] at htd
          cases htd
      · rw [hrec.2 td htd, hseg]

theorem process_buffer_segid (tokf : Str → List Str) (mtl mcl : Nat)
    (force : Bool) (st : TokState) :
    (process_buffer tokf mtl mcl force st).1.segment_id = st.segment_id ∧
    ∀ td ∈ (process_buffer tokf mtl mcl force st).2,
      td.segment_id = st.segment_id := by
  unfold process_buffer
  by_cases hg : force = false ∧ st.in_buf.length < mcl
  · rw [if_pos hg]
    exact ⟨rfl, by simp⟩
  · rw [if_neg hg]
    exact process_buffer_loop_segid tokf mtl force (st.in_buf.length + 1) st

theorem push_text_loop_segid (tokf : Str → List Str) (mtl mcl : Nat) :
    ∀ (fuel : Nat) (st : TokState) (text : Str),
    (push_text_loop tokf mtl mcl fuel st text).1.segment_id = st.segment_id ∧
    ∀ td ∈ (push_text_loop tokf mtl mcl fuel st text).2,
      td.segment_id = st.segment_id := by
  intro fuel
  induction fuel with
  | zero => intro st text; exact ⟨rfl, by simp [push_text_loop]⟩
  | succ fuel ih =>
    intro st text
    match hsp : splitAtFirstDot text with
    | some (pre, suf) =>
      rw [push_text_loop_dot tokf mtl mcl fuel st text pre suf hsp]
      have hpb := process_buffer_segid tokf mtl mcl true
        { st with in_buf := st.in_buf ++ pre }
      by_cases hsuf : suf = []
      · rw [if_pos hsuf]
        exact ⟨hpb.1, hpb.2⟩
      · rw [if_neg hsuf]
        have hrec := ih (process_buffer tokf mtl mcl true
          { st with in_buf := st.in_buf ++ pre }).1 suf
        refine ⟨by rw [hrec.1, hpb.1], ?_⟩
        intro td htd
        simp only [List.mem_append] at htd
        rcases htd with htd | htd
        · exact hpb.2 td htd
        · rw [hrec.2 td htd, hpb.1]
    | none =>
      rw [push_text_loop_nodot tokf mtl mcl fuel st text hsp]
      by_cases hg : (st.in_buf ++ text).length < mcl
      · rw [if_pos hg]
        exact ⟨rfl, by simp⟩
      · rw [if_neg hg]
        have hpb := process_buffer_segid tokf mtl mcl false
          { st with in_buf := st.in_buf ++ text }
        exact ⟨hpb.1, hpb.2⟩

/-- C6 counterexample -- an explicit `flush()` between two pushes that left
both buffers empty does not rotate the segment id: a token emitted after
that flush carries the same `segment_id` (0) as the token emitted before
it, contrary to the claim that every explicit flush rotates the id. -/
theorem flush_no_rotation_cex :
    (run_ops pyWords 1 1 { in_buf := [], out_buf := [], segment_id := 0 }
        [.push ("aaaa.".toList), .flush, .push ("bbbb.".toList)]).2 =
      [{ token := ("aaaa.".toList), segment_id := 0 },
       { token := ("bbbb.".toList), segment_id := 0 }] := by
  decide

/-- C6 (amended) -- the segment id is stable between emissions:
`push_text` never changes `_current_segment_id` and every token it emits
carries the current id; an explicit `flush()` that observes a non-empty
`in_buf` or `out_buf` emits under the current id and then rotates to a
fresh id (a `flush()` on empty buffers leaves the id unchanged); and
`end_input()` is exactly `flush()` followed by closing the event
channel. -/
theorem segment_id_discipline (tokf : Str → List Str) (mtl mcl : Nat) :
    (∀ (st : TokState) (text : Str),
      (push_text tokf mtl mcl st text).1.segment_id = st.segment_id ∧
      ∀ td ∈ (push_text tokf mtl mcl st text).2,
        td.segment_id = st.segment_id) ∧
    (∀ st : TokState, ¬(st.in_buf = [] ∧ st.out_buf = []) →
      (flush tokf st).1.segment_id = st.segment_id + 1 ∧
      ∀ td ∈ (flush tokf st).2, td.segment_id = st.segment_id) ∧
    (∀ st : TokState, st.in_buf = [] ∧ st.out_buf = [] →
      flush tokf st = ({ st with in_buf := [], out_buf := [] }, [])) ∧
    (∀ s : TokStream, stream_end_input tokf s =
      match stream_flush tokf s with
      | .error e => .error e
      | .ok r => .ok (stream_close r.1, r.2)) := by
  refine ⟨?_, ?_, ?_, fun s => rfl⟩
  · intro st text
    exact push_text_loop_segid tokf mtl mcl (text.length + 1) st text
  · intro st hne
    unfold flush
    rw [if_neg hne]
    refine ⟨rfl, ?_⟩
    intro td htd
    by_cases h1 : tokf st.in_buf = []
    · simp only [h1, reduceIte] at htd
      by_cases h2 : st.out_buf = []
      · simp only [h2, reduceIte] at htd
        cases htd
      · rw [if_neg h2] at htd
        simp only [List.mem_singleton] at htd
        rw [htd]
    · simp only [if_neg h1] at htd
      by_cases h3 : ((if st.out_buf = [] then st.out_buf
          else st.out_buf ++ [' ']) ++ joinSpace (tokf st.in_buf)) = []
      · rw [if_pos h3] at htd
        cases htd
      · rw [if_neg h3] at htd
        simp only [List.mem_singleton] at htd
        rw [htd]
  · intro st h
    unfold flush
    rw [if_pos h]

/-- Witness for `segment_id_discipline`: a non-empty flush rotates the id
from 5 to 6 and tags its emission 5; an empty flush leaves the state
unchanged. -/
theorem segment_id_discipline_witness :
    (flush pyWords { in_buf := ("a".toList), out_buf := [], segment_id := 5 }).1.segment_id = 6 ∧
    (∀ td ∈ (flush pyWords
        { in_buf := ("a".toList), out_buf := [], segment_id := 5 }).2,
      td.segment_id = 5) ∧
    flush pyWords { in_buf := [], out_buf := [], segment_id := 5 } =
      ({ in_buf := [], out_buf := [], segment_id := 5 }, []) := by
  have h := segment_id_discipline pyWords 1 1
  refine ⟨?_, ?_, ?_⟩
  · exact (h.2.1 { in_buf := ("a".toList), out_buf := [], segment_id := 5 }
      (by decide)).1
  · exact (h.2.1 { in_buf := ("a".toList), out_buf := [], segment_id := 5 }
      (by decide)).2
  · exact h.2.2.1 { in_buf := [], out_buf := [], segment_id := 5 } ⟨rfl, rfl⟩

/-- Witness for `split_push_same_words` at the concrete whitespace-safe
split of the counterexample: the flattened words agree even though the
token grouping differs. -/
theorem split_push_same_words_witness :
    flat_words (run_ops pyWords 1 6
        { in_buf := [], out_buf := [], segment_id := 0 }
        [.push ("aa bb cc ".toList), .push ("dd".toList), .flush]).2 =
    flat_words (run_ops pyWords 1 6
        { in_buf := [], out_buf := [], segment_id := 0 }
        [.push ("aa bb cc dd".toList), .flush]).2 := by
  have h := split_push_same_words 1 6 ("aa bb cc ".toList) ("dd".toList)
    (by decide)
  simpa using h
